import Mathlib

/-!
# Verification of the scholarship data pipeline

This file gives a shallow embedding, in Lean 4, of the core data pipeline of the
scholarship-aggregation program (the modules `ai_engine/data_processor.py` and
`ai_engine/matcher.py`), and proves or refutes the specification claims about it.

Modelling conventions:
* Python `str` values are Lean `String`s; all character-level operations
  (`lower`, `strip`, `split`, `replace`, substring `in`) are implemented
  explicitly on `List Char` with Python's semantics.  The case mapping covers
  ASCII together with the single Unicode lowercase mapping that changes a
  string's length — `'İ'` (U+0130) lowers to `"i"` plus a combining dot
  above — which the validity filter's short-title pattern can observe.
* A scholarship record (a Python dict of optional string fields) is a structure
  whose string fields default to `""` for an absent key; the two fields whose
  *presence* the claims talk about (`alternate_urls`, `match_score`) are
  `Option`s.
* All match-score values the Python code produces are floats carrying exact
  small integer values (3.0, 5.0, …, 100.0), so scores are modelled as `Int`;
  the profile CGPA is a `ℚ` (3.5 is written `mkRat 7 2`).
* `datetime.now().month` is passed explicitly as a `currentMonth : Nat`
  parameter.
* Python's `list(set(...))` (used for alternate URLs) iterates in unspecified
  hash order; it is modelled by a deterministic first-seen deduplication
  `dedupKeepFirst`, and the claims that depend on the *order* of that list are
  settled only up to this choice (membership and duplicate-freeness are
  order-independent).
-/

/-! ## Character and string primitives (Python `str` operations) -/

/-- Python whitespace characters (`str.split`/`str.strip` with no argument). -/
def pyWS (c : Char) : Bool :=
  c = ' ' || c = '\t' || c = '\n' || c = '\r' || c = '\x0b' || c = '\x0c'

/-- ASCII lower-casing of one character: the one-to-one fragment of Python
`str.lower`. -/
def lowerChar (c : Char) : Char :=
  if 65 ≤ c.toNat ∧ c.toNat ≤ 90 then Char.ofNat (c.toNat + 32) else c

/-- Python's lower-casing of one character, as a character list: the ASCII
mapping together with the single Unicode lowercase mapping that changes the
length of its input — `'İ'` (U+0130) lowers to `"i"` followed by the
combining dot above (U+0307).  The length-sensitivity of `_is_valid`'s
short-title pattern `^.{0,10}$` makes this expansion observable. -/
def lowerCharPy (c : Char) : List Char :=
  if c = 'İ' then ['i', '\u0307'] else [lowerChar c]

/-- Python `s.lower()` (the ASCII fragment plus the length-changing U+0130
mapping). -/
def lowerStr (s : String) : String := ⟨s.data.flatMap lowerCharPy⟩

/-- Strip leading and trailing Python whitespace from a character list. -/
def trimChars (s : List Char) : List Char :=
  ((s.dropWhile pyWS).reverse.dropWhile pyWS).reverse

/-- Python `s.strip()`. -/
def stripStr (s : String) : String := ⟨trimChars s.data⟩

/-- Python substring test `pat in s` on character lists. -/
def subOccurs (pat : List Char) : List Char → Bool
  | [] => pat.isEmpty
  | c :: t => pat.isPrefixOf (c :: t) || subOccurs pat t

/-- Python substring test `pat in s` on strings. -/
def strIn (pat s : String) : Bool := subOccurs pat.data s.data

/-- Python `s.startswith(p)`. -/
def strStarts (s p : String) : Bool := p.data.isPrefixOf s.data

theorem dropWhile_len_le (p : α → Bool) (l : List α) :
    (l.dropWhile p).length ≤ l.length := by
  induction l with
  | nil => simp [List.dropWhile]
  | cons a t ih =>
    simp only [List.dropWhile]
    split
    · exact Nat.le_succ_of_le ih
    · simp

/-- Python `s.replace(pat, rep)` with a structural length fuel (so that the
definition evaluates by kernel reduction): replace every non-overlapping
occurrence, scanning left to right, the scan resuming after each
replacement. -/
def replaceFuel (pat rep : List Char) : Nat → List Char → List Char
  | 0, s => s
  | _ + 1, [] => []
  | fuel + 1, c :: t =>
    if pat ≠ [] ∧ pat.isPrefixOf (c :: t) then
      rep ++ replaceFuel pat rep fuel ((c :: t).drop pat.length)
    else
      c :: replaceFuel pat rep fuel t

/-- Python `s.replace(pat, rep)` on character lists. -/
def replaceChars (pat rep s : List Char) : List Char :=
  replaceFuel pat rep s.length s

theorem replaceFuel_congr (pat rep : List Char) (f1 f2 : Nat) (s : List Char)
    (h1 : s.length ≤ f1) (h2 : s.length ≤ f2) :
    replaceFuel pat rep f1 s = replaceFuel pat rep f2 s := by
  induction f1 generalizing f2 s with
  | zero =>
    have hs : s = [] := List.length_eq_zero.mp (Nat.le_zero.mp h1)
    subst hs
    cases f2 <;> rfl
  | succ f1 ih =>
    cases s with
    | nil => cases f2 <;> rfl
    | cons c t =>
      cases f2 with
      | zero => simp at h2
      | succ f2 =>
        simp only [replaceFuel]
        simp only [List.length_cons] at h1 h2
        by_cases hp : pat ≠ [] ∧ pat.isPrefixOf (c :: t)
        · rw [if_pos hp, if_pos hp]
          have hl : 1 ≤ pat.length := List.length_pos.mpr hp.1
          have hd : ((c :: t).drop pat.length).length ≤ t.length := by
            simp only [List.length_drop, List.length_cons]
            omega
          rw [ih f2 _ (by omega) (by omega)]
        · rw [if_neg hp, if_neg hp, ih f2 t (by omega) (by omega)]

/-- The defining one-step equation of `replaceChars` on a nonempty list. -/
theorem replaceChars_cons (pat rep : List Char) (c : Char) (t : List Char) :
    replaceChars pat rep (c :: t)
      = if pat ≠ [] ∧ pat.isPrefixOf (c :: t) then
          rep ++ replaceChars pat rep ((c :: t).drop pat.length)
        else c :: replaceChars pat rep t := by
  unfold replaceChars
  simp only [List.length_cons, replaceFuel]
  by_cases hp : pat ≠ [] ∧ pat.isPrefixOf (c :: t)
  · rw [if_pos hp, if_pos hp]
    have hl : 1 ≤ pat.length := List.length_pos.mpr hp.1
    rw [replaceFuel_congr pat rep t.length _ _
      (by simp only [List.length_drop, List.length_cons]; omega) (le_refl _)]
  · rw [if_neg hp, if_neg hp]

/-- Python `s.replace(pat, rep)` on strings. -/
def replaceStr (s pat rep : String) : String := ⟨replaceChars pat.data rep.data s.data⟩

/-- Python `s.split()` tokenizer state machine: `cur` is the reversed current
word.  Splitting on whitespace runs produces no empty words. -/
def splitGo (cur : List Char) : List Char → List (List Char)
  | [] => if cur.isEmpty then [] else [cur.reverse]
  | c :: t =>
    if pyWS c then
      if cur.isEmpty then splitGo [] t
      else cur.reverse :: splitGo [] t
    else splitGo (c :: cur) t

/-- Python `s.split()` with no argument: split on whitespace runs, no empties. -/
def splitPy (s : List Char) : List (List Char) := splitGo [] s

/-- Python `' '.join(s.split())` — collapse whitespace runs, trim ends. -/
def wsCollapse (s : String) : String := ⟨List.intercalate [' '] (splitPy s.data)⟩

/-- State machine for `re.sub(r'\s+', ' ', s)`: `prevWS` records whether the scan
is inside a whitespace run (one space was already emitted for it). -/
def squeezeGo (prevWS : Bool) : List Char → List Char
  | [] => []
  | c :: t =>
    if pyWS c then
      if prevWS then squeezeGo true t else ' ' :: squeezeGo true t
    else c :: squeezeGo false t

/-- Model of `re.sub(r'\s+', ' ', s)`: each whitespace run becomes a single space. -/
def squeezeWS (s : List Char) : List Char := squeezeGo false s

/-- Word characters of `re.findall(r'\w+', s)` (ASCII fragment of `\w`). -/
def wordChar (c : Char) : Bool := c.isAlphanum || c = '_'

/-- State machine for `re.findall(r'\w+', s)`: `cur` is the reversed current run
of word characters. -/
def wordGo (cur : List Char) : List Char → List (List Char)
  | [] => if cur.isEmpty then [] else [cur.reverse]
  | c :: t =>
    if wordChar c then wordGo (c :: cur) t
    else if cur.isEmpty then wordGo [] t
    else cur.reverse :: wordGo [] t

/-- Maximal runs of word characters. -/
def wordRuns (s : List Char) : List (List Char) := wordGo [] s

/-- Tokens of `re.findall(r'\w+', s)` as strings. -/
def wordTokens (s : String) : List String := (wordRuns s.data).map (fun l => ⟨l⟩)

/-- First-seen-order deduplication with a `seen` accumulator; deterministic
model of Python `list(set(xs))` (whose CPython iteration order is
hash-dependent). -/
def dedupGo (seen : List String) : List String → List String
  | [] => []
  | x :: xs => if x ∈ seen then dedupGo seen xs else x :: dedupGo (x :: seen) xs

/-- Deduplication keeping first occurrences. -/
def dedupKeepFirst (l : List String) : List String := dedupGo [] l

/-! ## Data model -/

/-- A scholarship record: the string-keyed Python dict flowing through the
pipeline.  String fields default to `""` for an absent key.  `alternate_urls`
and `match_score` model keys that the pipeline itself may add, so their
absence is explicit (`none`). -/
structure Record where
  title : String := ""
  country : String := ""
  degree : String := ""
  field : String := ""
  duration : String := ""
  funding : String := ""
  eligibility : String := ""
  documents : String := ""
  deadline : String := ""
  url : String := ""
  description : String := ""
  alternate_urls : Option (List String) := none
  match_score : Option Int := none
deriving DecidableEq

/-- The requester profile handed to the matcher; every key is optional
(`profile.get` with a per-call default). -/
structure Profile where
  country : Option String := none
  degree_level : Option String := none
  field_of_study : Option String := none
  nationality : Option String := none
  cgpa : Option ℚ := none
deriving DecidableEq

/-! ## Scoring engine (`ai_engine/matcher.py`, class ProfileMatcher) -/

/-- Model of `_score_country` (matcher.py:53-66). -/
def scoreCountry (sch : Record) (profile : Profile) : Int :=
  let desired := profile.country.getD "Any Country"
  let schCountry := lowerStr sch.country
  if desired = "Any Country" then 15
  else if strIn (lowerStr desired) schCountry then 30
  else if strIn "various" schCountry || strIn "multiple" schCountry then 20
  else 5

/-- The `degree_keywords` table of `_score_degree`, in declaration order. -/
def degreeKeywords : List (String × List String) :=
  [("bachelor", ["undergraduate", "bachelor"]),
   ("master", ["master", "graduate", "postgraduate"]),
   ("phd", ["phd", "doctoral", "doctorate"]),
   ("postdoctoral", ["postdoc", "postdoctoral"])]

/-- Model of `_score_degree` (matcher.py:68-97).  The `for key, keywords` loop returns
20 as soon as some table row has its key in the desired degree and one of its
keywords in the record degree; since every successful row returns the same
value, the loop equals an `any` over the rows. -/
def scoreDegree (sch : Record) (profile : Profile) : Int :=
  let desired := lowerStr (profile.degree_level.getD "")
  let schDegree := lowerStr sch.degree
  if desired = "" ∨ schDegree = "" then 10
  else if strIn desired schDegree then 25
  else if degreeKeywords.any (fun kw => strIn kw.1 desired && kw.2.any (fun k => strIn k schDegree)) then 20
  else if strIn "all" schDegree || strIn "various" schDegree then 12
  else 5

/-- The `field_groups` table of `_score_field`, in declaration order. -/
def fieldGroups : List (String × List String) :=
  [("engineering", ["technology", "technical", "stem"]),
   ("computer", ["it", "technology", "data", "software"]),
   ("science", ["natural", "stem", "research"]),
   ("business", ["management", "mba", "commerce"]),
   ("medical", ["health", "medicine", "clinical"])]

/-- Model of `_score_field` (matcher.py:99-131).  `len(set(a) & set(b)) > 0` is a
shared-token test, modelled by `any`/`contains` over the token lists. -/
def scoreField (sch : Record) (profile : Profile) : Int :=
  let desired := lowerStr (profile.field_of_study.getD "All Fields")
  let schField := lowerStr sch.field
  if desired = "all fields" ∨ strIn "all" schField then 10
  else if (wordTokens desired).any (fun t => (wordTokens schField).contains t) then 20
  else if fieldGroups.any (fun g => strIn g.1 desired && g.2.any (fun r => strIn r schField)) then 15
  else 5

/-- Model of `_score_cgpa` (matcher.py:133-144); 3.5 and 2.5 written as exact rationals. -/
def scoreCgpa (profile : Profile) : Int :=
  let cgpa := profile.cgpa.getD 0
  if cgpa ≥ mkRat 7 2 then 15
  else if cgpa ≥ 3 then 12
  else if cgpa ≥ mkRat 5 2 then 8
  else 5

/-- Model of `_score_funding` (matcher.py:146-155). -/
def scoreFunding (sch : Record) : Int :=
  let funding := lowerStr sch.funding
  if strIn "full" funding || strIn "fully funded" funding then 10
  else if strIn "partial" funding then 6
  else 3

/-- Model of `_calculate_match_score` (matcher.py:32-51): sum of the five component
scores, capped at 100 by `min(score, 100.0)`. -/
def calculateMatchScore (sch : Record) (profile : Profile) : Int :=
  min (scoreCountry sch profile + scoreDegree sch profile + scoreField sch profile
    + scoreCgpa profile + scoreFunding sch) 100

theorem scoreCountry_bounds (sch : Record) (profile : Profile) :
    5 ≤ scoreCountry sch profile ∧ scoreCountry sch profile ≤ 30 := by
  simp only [scoreCountry]
  split_ifs <;> omega

theorem scoreDegree_bounds (sch : Record) (profile : Profile) :
    5 ≤ scoreDegree sch profile ∧ scoreDegree sch profile ≤ 25 := by
  simp only [scoreDegree]
  split_ifs <;> omega

theorem scoreField_bounds (sch : Record) (profile : Profile) :
    5 ≤ scoreField sch profile ∧ scoreField sch profile ≤ 20 := by
  simp only [scoreField]
  split_ifs <;> omega

theorem scoreCgpa_bounds (profile : Profile) :
    5 ≤ scoreCgpa profile ∧ scoreCgpa profile ≤ 15 := by
  simp only [scoreCgpa]
  split_ifs <;> omega

theorem scoreFunding_bounds (sch : Record) :
    3 ≤ scoreFunding sch ∧ scoreFunding sch ≤ 10 := by
  simp only [scoreFunding]
  split_ifs <;> omega

/-- Claim C1: For every profile and every record, the match score computed by
`_calculate_match_score` — the sum of the five component scores capped at
100 — satisfies `0 ≤ match_score ≤ 100`. -/
theorem match_score_bounds (sch : Record) (profile : Profile) :
    0 ≤ calculateMatchScore sch profile ∧ calculateMatchScore sch profile ≤ 100 := by
  have h1 := scoreCountry_bounds sch profile
  have h2 := scoreDegree_bounds sch profile
  have h3 := scoreField_bounds sch profile
  have h4 := scoreCgpa_bounds profile
  have h5 := scoreFunding_bounds sch
  unfold calculateMatchScore
  constructor
  · exact le_min (by omega) (by omega)
  · exact min_le_right _ _

/-! ## Validity / noise filter (`_is_valid`, data_processor.py:56-77) -/

/-- First noise regex `^(home|about|contact|login|sign up|subscribe|follow us)$`. -/
def noiseAlts1 : List String :=
  ["home", "about", "contact", "login", "sign up", "subscribe", "follow us"]

/-- Second noise regex `^(facebook|instagram|twitter|linkedin|youtube|x\.com)$`. -/
def noiseAlts2 : List String :=
  ["facebook", "instagram", "twitter", "linkedin", "youtube", "x.com"]

/-- Third noise regex `^(cookie|privacy|terms|menu|navigation|search|share)$`. -/
def noiseAlts3 : List String :=
  ["cookie", "privacy", "terms", "menu", "navigation", "search", "share"]

/-- Model of `re.match('^(w1|...|wn)$', s)` for an alternation of literals: anchored at
the start, and `$` also matches just before one final newline. -/
def litAlts (alts : List String) (s : List Char) : Bool :=
  alts.any (fun w => s == w.data || s == w.data ++ ['\n'])

/-- Model of `re.match(r'^.{0,10}$', s)`: at most ten non-newline characters, optionally
followed by one final newline (which `$` matches before). -/
def shortNoise (s : List Char) : Bool :=
  (s.length ≤ 10 && s.all (fun c => c ≠ '\n'))
  || (match s.getLast? with
      | some '\n' => s.dropLast.length ≤ 10 && s.dropLast.all (fun c => c ≠ '\n')
      | _ => false)

/-- Model of `_is_valid` (data_processor.py:56-77): reject empty/short stripped titles
and titles matching one of the noise patterns. -/
def isValid (sch : Record) : Bool :=
  let title := stripStr sch.title
  if title = "" ∨ title.length < 5 then false
  else
    let titleLower := stripStr (lowerStr title)
    !(litAlts noiseAlts1 titleLower.data || litAlts noiseAlts2 titleLower.data
      || litAlts noiseAlts3 titleLower.data || shortNoise titleLower.data)

theorem trimChars_length_le (s : List Char) : (trimChars s).length ≤ s.length := by
  unfold trimChars
  calc ((s.dropWhile pyWS).reverse.dropWhile pyWS).reverse.length
      = ((s.dropWhile pyWS).reverse.dropWhile pyWS).length := List.length_reverse _
    _ ≤ (s.dropWhile pyWS).reverse.length := dropWhile_len_le _ _
    _ = (s.dropWhile pyWS).length := List.length_reverse _
    _ ≤ s.length := dropWhile_len_le _ _

theorem trimChars_subset (s : List Char) : trimChars s ⊆ s := by
  unfold trimChars
  intro c hc
  rw [List.mem_reverse] at hc
  have h1 := (List.dropWhile_sublist (l := (s.dropWhile pyWS).reverse) pyWS).subset hc
  rw [List.mem_reverse] at h1
  exact (List.dropWhile_sublist (l := s) pyWS).subset h1

theorem toNat_charOfNat (n : Nat) (h1 : 97 ≤ n) (h2 : n ≤ 122) :
    (Char.ofNat n).toNat = n := by
  have hv : n.isValidChar := Or.inl (by omega)
  unfold Char.ofNat
  rw [dif_pos hv]
  rfl

theorem lowerChar_ne_newline (c : Char) (h : c ≠ '\n') : lowerChar c ≠ '\n' := by
  unfold lowerChar
  split
  · rename_i hr
    intro hc
    have := congrArg Char.toNat hc
    rw [toNat_charOfNat (c.toNat + 32) (by omega) (by omega)] at this
    simp only [show ('\n').toNat = 10 from rfl] at this
    omega
  · exact h

theorem mem_lowerCharPy_ne_newline (a c : Char) (ha : a ≠ '\n')
    (hc : c ∈ lowerCharPy a) : c ≠ '\n' := by
  unfold lowerCharPy at hc
  split at hc
  · rcases List.mem_cons.mp hc with rfl | hc2
    · decide
    · rw [List.mem_singleton.mp hc2]
      decide
  · rw [List.mem_singleton.mp hc]
    exact lowerChar_ne_newline a ha

/-- On titles without `'İ'`, Python's lower-casing preserves length. -/
theorem lowerCharPy_length_eq (s : List Char) (h : 'İ' ∉ s) :
    (s.flatMap lowerCharPy).length = s.length := by
  induction s with
  | nil => rfl
  | cons c t ih =>
    simp only [List.mem_cons] at h
    push_neg at h
    rw [List.flatMap_cons, List.length_append, ih h.2]
    have hc : lowerCharPy c = [lowerChar c] := by
      unfold lowerCharPy
      rw [if_neg (fun he => h.1 he.symm)]
    rw [hc]
    simp [Nat.add_comm]

/-- Counterexample to claim C10: a title of ten `'İ'` (U+0130) characters is
accepted by `_is_valid` — Python's `str.lower` expands each `'İ'` to two
characters, so the lowered title has 20 characters and the short-title
pattern `^.{0,10}$` does not match — yet its stripped title has length
10 < 11, refuting the claimed minimum of 11 for newline-free titles. -/
theorem valid_title_length_counterexample :
    isValid ({ title := "İİİİİİİİİİ" } : Record) = true
    ∧ '\n' ∉ ("İİİİİİİİİİ" : String).data
    ∧ (stripStr ("İİİİİİİİİİ" : String)).length = 10 := by
  refine ⟨by decide, by decide, by decide⟩

/-- Claim C10, amended: every record accepted by `_is_valid` whose title
contains no newline and no `'İ'` (U+0130) — the one character whose Python
lower-casing changes the string's length — has a stripped title of length at
least 11 (strictly stronger than the stated minimum of 5): on such titles
lower-casing preserves length, so the noise pattern `^.{0,10}$` rejects any
stripped title of 10 characters or fewer. -/
theorem valid_title_length (sch : Record) (hv : isValid sch = true)
    (hn : ∀ c ∈ sch.title.data, c ≠ '\n') (hdot : 'İ' ∉ sch.title.data) :
    11 ≤ (stripStr sch.title).length := by
  simp only [isValid] at hv
  split at hv
  · exact absurd hv (by simp)
  · rename_i hcond
    rw [Bool.not_eq_true', Bool.or_eq_false_iff, Bool.or_eq_false_iff,
      Bool.or_eq_false_iff] at hv
    have hshort := hv.2
    -- the characters of the doubly-stripped lowered title
    set tl : List Char := (stripStr (lowerStr (stripStr sch.title))).data with htl
    have hnl : ∀ c ∈ tl, c ≠ '\n' := by
      intro c hc
      have hc1 : c ∈ (lowerStr (stripStr sch.title)).data := trimChars_subset _ hc
      simp only [lowerStr, stripStr] at hc1
      rw [List.mem_flatMap] at hc1
      obtain ⟨a, ha, hca⟩ := hc1
      exact mem_lowerCharPy_ne_newline a c (hn a (trimChars_subset _ ha)) hca
    have hlen : 10 < tl.length := by
      by_contra hle
      push_neg at hle
      have : shortNoise tl = true := by
        unfold shortNoise
        apply Bool.or_eq_true_iff.mpr
        left
        rw [Bool.and_eq_true]
        constructor
        · exact decide_eq_true hle
        · rw [List.all_eq_true]
          intro c hc
          exact decide_eq_true (hnl c hc)
      rw [this] at hshort
      exact absurd hshort (by simp)
    have hle2 : tl.length ≤ (stripStr sch.title).length := by
      simp only [htl, stripStr, lowerStr]
      calc (trimChars ((trimChars sch.title.data).flatMap lowerCharPy)).length
          ≤ ((trimChars sch.title.data).flatMap lowerCharPy).length :=
            trimChars_length_le _
        _ = (trimChars sch.title.data).length :=
            lowerCharPy_length_eq _ (fun hm => hdot (trimChars_subset _ hm))
    simp only [stripStr, String.length] at hle2 ⊢
    omega

/-- Witness for C10 (amended) at a concrete record. -/
theorem valid_title_length_witness :
    11 ≤ (stripStr ({ title := "Chevening Scholarship 2026" } : Record).title).length :=
  valid_title_length { title := "Chevening Scholarship 2026" } (by decide) (by decide)
    (by decide)

/-! ## Family classifier and sub-key deriver (data_processor.py:116-159) -/

/-- The `SCHOLARSHIP_FAMILIES` table (data_processor.py:11-29) in declaration
order (Python dicts iterate in insertion order). -/
def SCHOLARSHIP_FAMILIES : List (String × List String) :=
  [("daad", ["daad", "german academic exchange"]),
   ("erasmus", ["erasmus", "erasmus+", "erasmus mundus", "erasmus plus"]),
   ("fulbright", ["fulbright"]),
   ("chevening", ["chevening"]),
   ("commonwealth", ["commonwealth scholarship", "commonwealth fellowship"]),
   ("hec_overseas", ["hec overseas"]),
   ("hec_indigenous", ["hec indigenous", "ipdp"]),
   ("hec_nrpu", ["hec nrpu", "nrpu"]),
   ("hec_commonwealth", ["hec commonwealth"]),
   ("hec_csc", ["hec chinese", "hec csc", "chinese government scholarship"]),
   ("hec_usaid", ["hec usaid"]),
   ("hec_turkey", ["hec turkey", "türkiye bursları"]),
   ("hec_mext", ["hec japan", "hec mext", "mext scholarship"]),
   ("hec_france", ["hec france", "campus france"]),
   ("hec_daad", ["hec-daad", "hec daad"]),
   ("gssp", ["graduate school scholarship programme", "gssp"]),
   ("epos", ["epos scholarship", "development-related postgraduate"])]

/-- The nested loops of `_identify_family`: scan families in table order and
return the first whose any keyword occurs in the combined text. -/
def famScan (combined : String) : List (String × List String) → String
  | [] => ""
  | fam :: rest =>
    if fam.2.any (fun kw => strIn kw combined) then fam.1
    else famScan combined rest

/-- Model of `_identify_family` (data_processor.py:116-127): the combined text is the
lower-cased title and url joined by one space. -/
def identifyFamily (sch : Record) : String :=
  famScan (lowerStr sch.title ++ " " ++ lowerStr sch.url) SCHOLARSHIP_FAMILIES

/-- The specification's description of family classification (a second
definition following the spec's words): the *first* family in the fixed
declaration order any of whose keywords occurs as a substring of the combined
lower-cased text, and `""` when no family's keyword occurs. -/
def identifyFamilySpec (sch : Record) : String :=
  match SCHOLARSHIP_FAMILIES.find?
      (fun fam => fam.2.any
        (fun kw => strIn kw (lowerStr sch.title ++ " " ++ lowerStr sch.url))) with
  | some fam => fam.1
  | none => ""

theorem famScan_eq_find (combined : String) (table : List (String × List String)) :
    famScan combined table =
      match table.find? (fun fam => fam.2.any (fun kw => strIn kw combined)) with
      | some fam => fam.1
      | none => "" := by
  induction table with
  | nil => rfl
  | cons fam rest ih =>
    unfold famScan
    rw [List.find?_cons]
    cases h : fam.2.any (fun kw => strIn kw combined) <;> simp [h, ih]

/-- Claim C6: Family classification is ordered first-match: `_identify_family`
lower-cases title and url, joins them, and returns the first family in the
fixed declaration order of `SCHOLARSHIP_FAMILIES` any of whose keywords occurs
as a substring; it returns `""` when no keyword occurs. -/
theorem identifyFamily_first_match (sch : Record) :
    identifyFamily sch = identifyFamilySpec sch :=
  famScan_eq_find _ _

/-- Model of `_get_sub_key` (data_processor.py:129-159): family-specific disambiguation,
falling back to the record's lower-cased degree (`degree or 'general'`). -/
def getSubKey (sch : Record) (family : String) : String :=
  let title := lowerStr sch.title
  let degree := lowerStr sch.degree
  if family = "daad" then
    if strIn "gssp" title || strIn "graduate school" title then "gssp"
    else if strIn "epos" title || strIn "development-related" title then "epos"
    else if strIn "study scholarship" title || strIn "all disciplines" title then "study"
    else if strIn "research grant" title then "research"
    else if strIn "stibet" title then "stibet"
    else "general"
  else if strStarts family "hec_" then family
  else if family = "erasmus" then "main"
  else if degree = "" then "general"
  else degree

/-! ## Deadline normalizer (`_normalize_deadline`, data_processor.py:203-239) -/

/-- The skip list of literal non-date deadline values (data_processor.py:205-207). -/
def deadlineSkips : List String :=
  ["N/A", "Not specified", "Varies", "Check website", "Rolling",
   "Rolling deadlines", "Varies by program", "Varies by programme",
   "Open year-round"]

/-- Model of `re.search(r'20(\d{2})', s)`: the first position where `2`, `0` and two
digits occur consecutively; returns the two digit characters of the match. -/
def firstYear : List Char → Option (Char × Char)
  | c1 :: c2 :: c3 :: c4 :: rest =>
    if c1 = '2' ∧ c2 = '0' ∧ c3.isDigit ∧ c4.isDigit then some (c3, c4)
    else firstYear (c2 :: c3 :: c4 :: rest)
  | _ => none

/-- The numeric year `int('20' + m.group(1))` for digit characters `a`, `b`. -/
def yearVal (a b : Char) : Nat := 2000 + 10 * (a.toNat - 48) + (b.toNat - 48)

/-- The `month_names` dict (data_processor.py:224-230), in insertion order. -/
def monthNames : List (String × Nat) :=
  [("january", 1), ("february", 2), ("march", 3), ("april", 4),
   ("may", 5), ("june", 6), ("july", 7), ("august", 8),
   ("september", 9), ("october", 10), ("november", 11), ("december", 12),
   ("jan", 1), ("feb", 2), ("mar", 3), ("apr", 4),
   ("jun", 6), ("jul", 7), ("aug", 8), ("sep", 9), ("oct", 10),
   ("nov", 11), ("dec", 12)]

/-- The first month-table entry whose name occurs in the lowered deadline
(the `for month_name, month_num in month_names.items()` loop). -/
def firstMonth (deadlineLower : String) : Option (String × Nat) :=
  monthNames.find? (fun mn => strIn mn.1 deadlineLower)

/-- Model of `_normalize_deadline` (data_processor.py:203-239), the wall-clock month
passed explicitly.  For a matched year `20ab` (digit characters `a`, `b`),
Python's `str(year)` is exactly the four characters `2`, `0`, `a`, `b`, so the
`replace` call rewrites every occurrence of that pattern to `2025`. -/
def normalizeDeadline (currentMonth : Nat) (deadline : String) : String :=
  if deadline = "" ∨ deadline ∈ deadlineSkips then deadline
  else
    match firstYear deadline.data with
    | some (a, b) =>
      if yearVal a b < 2025 then
        ⟨replaceChars ['2', '0', a, b] ['2', '0', '2', '5'] deadline.data⟩
      else deadline
    | none =>
      match firstMonth (lowerStr deadline) with
      | some mn => deadline ++ (if mn.2 ≥ currentMonth then " 2025" else " 2026")
      | none => deadline ++ " (2025/2026)"

theorem normalizeDeadline_eq_skip (m : Nat) (d : String)
    (hskip : d = "" ∨ d ∈ deadlineSkips) : normalizeDeadline m d = d := by
  unfold normalizeDeadline
  rw [if_pos hskip]

theorem normalizeDeadline_eq_year (m : Nat) (d : String) (a b : Char)
    (hskip : ¬(d = "" ∨ d ∈ deadlineSkips)) (hy : firstYear d.data = some (a, b)) :
    normalizeDeadline m d
      = if yearVal a b < 2025 then
          ⟨replaceChars ['2', '0', a, b] ['2', '0', '2', '5'] d.data⟩
        else d := by
  unfold normalizeDeadline
  rw [if_neg hskip, hy]

theorem normalizeDeadline_eq_month (m : Nat) (d : String) (nm : String) (num : Nat)
    (hskip : ¬(d = "" ∨ d ∈ deadlineSkips)) (hy : firstYear d.data = none)
    (hm : firstMonth (lowerStr d) = some (nm, num)) :
    normalizeDeadline m d = d ++ (if num ≥ m then " 2025" else " 2026") := by
  unfold normalizeDeadline
  rw [if_neg hskip, hy, hm]

theorem normalizeDeadline_eq_nodate (m : Nat) (d : String)
    (hskip : ¬(d = "" ∨ d ∈ deadlineSkips)) (hy : firstYear d.data = none)
    (hm : firstMonth (lowerStr d) = none) :
    normalizeDeadline m d = d ++ " (2025/2026)" := by
  unfold normalizeDeadline
  rw [if_neg hskip, hy, hm]

/-- Counterexample to claim C7: The deadline `"Due 1999"` contains the 4-digit year
token `1999`, which is strictly before the cutoff 2025, so the claim requires
that token to be replaced with the cutoff year (giving `"Due 2025"`).  The
code's year regex `20(\d{2})` does not match `1999`, so the code instead falls
through to the no-year/no-month branch and appends the range marker. -/
theorem normalizeDeadline_year_counterexample :
    normalizeDeadline 10 "Due 1999" = "Due 1999 (2025/2026)" ∧
    normalizeDeadline 10 "Due 1999" ≠ replaceStr "Due 1999" "1999" "2025" := by
  constructor <;> decide

/-- Claim C7, amended: The deadline normalizer follows the specified algorithm
with the year token read as the regex `20(\d{2})` reads it: skip-list literals
and empty strings pass through unchanged; when the *first* `20\d\d` token
names a year strictly before 2025, every occurrence of that token's text is
replaced by `2025` (4-digit years outside 2000–2099, e.g. `1999`, are not
recognized as years), and when it names a year ≥ 2025 the string is left
as-is; with no such token but a recognized month name (the first in the fixed
table order), the cutoff year 2025 is appended when the month index is ≥ the
current month and 2026 otherwise; with neither, `" (2025/2026)"` is appended. -/
theorem normalizeDeadline_cases (m : Nat) (d : String) :
    (d = "" ∨ d ∈ deadlineSkips → normalizeDeadline m d = d)
  ∧ (¬(d = "" ∨ d ∈ deadlineSkips) →
      (∀ a b, firstYear d.data = some (a, b) →
        (yearVal a b < 2025 →
          normalizeDeadline m d
            = ⟨replaceChars ['2', '0', a, b] ['2', '0', '2', '5'] d.data⟩)
        ∧ (2025 ≤ yearVal a b → normalizeDeadline m d = d))
      ∧ (firstYear d.data = none →
        (∀ nm num, firstMonth (lowerStr d) = some (nm, num) →
          (m ≤ num → normalizeDeadline m d = d ++ " 2025")
          ∧ (num < m → normalizeDeadline m d = d ++ " 2026"))
        ∧ (firstMonth (lowerStr d) = none →
          normalizeDeadline m d = d ++ " (2025/2026)"))) := by
  refine ⟨fun h => normalizeDeadline_eq_skip m d h, fun hns => ⟨?_, fun hy => ⟨?_, ?_⟩⟩⟩
  · intro a b hy
    constructor
    · intro hlt
      rw [normalizeDeadline_eq_year m d a b hns hy, if_pos hlt]
    · intro hge
      rw [normalizeDeadline_eq_year m d a b hns hy, if_neg (by omega)]
  · intro nm num hm
    constructor
    · intro hle
      rw [normalizeDeadline_eq_month m d nm num hns hy hm, if_pos (by omega)]
    · intro hlt
      rw [normalizeDeadline_eq_month m d nm num hns hy hm, if_neg (by omega)]
  · intro hm
    exact normalizeDeadline_eq_nodate m d hns hy hm

/-- Witness for C7 at the spec's own example: `"March"` with current month 3
gains the cutoff year. -/
theorem normalizeDeadline_cases_witness :
    normalizeDeadline 3 "March" = "March" ++ " 2025" := by
  have h := (normalizeDeadline_cases 3 "March").2 (by decide)
  have h2 := (h.2 (by decide)).1 "march" 3 (by decide)
  exact h2.1 (by decide)

/-! ### Idempotence of the deadline normalizer

Every output of `_normalize_deadline` either equals its input or contains a
`20\d\d` token whose year is ≥ 2025 as its first year match, so a second run
leaves it unchanged. -/

theorem firstYear_cons (c1 c2 c3 c4 : Char) (t : List Char) :
    firstYear (c1 :: c2 :: c3 :: c4 :: t)
      = if c1 = '2' ∧ c2 = '0' ∧ c3.isDigit ∧ c4.isDigit then some (c3, c4)
        else firstYear (c2 :: c3 :: c4 :: t) := rfl

theorem firstYear_short (s : List Char) (h : s.length < 4) : firstYear s = none := by
  match s, h with
  | [], _ => rfl
  | [_], _ => rfl
  | [_, _], _ => rfl
  | [_, _, _], _ => rfl
  | _ :: _ :: _ :: _ :: _, h => simp only [List.length_cons] at h; omega

theorem firstYear_shape (s : List Char) (p : Char × Char) (h : firstYear s = some p) :
    ∃ c1 c2 c3 c4 t, s = c1 :: c2 :: c3 :: c4 :: t := by
  rcases s with _ | ⟨c1, _ | ⟨c2, _ | ⟨c3, _ | ⟨c4, t⟩⟩⟩⟩
  · rw [firstYear_short _ (by simp)] at h; exact Option.noConfusion h
  · rw [firstYear_short _ (by simp)] at h; exact Option.noConfusion h
  · rw [firstYear_short _ (by simp)] at h; exact Option.noConfusion h
  · rw [firstYear_short _ (by simp)] at h; exact Option.noConfusion h
  · exact ⟨c1, c2, c3, c4, t, rfl⟩

theorem firstYear_digits (s : List Char) (a b : Char) (h : firstYear s = some (a, b)) :
    a.isDigit ∧ b.isDigit := by
  induction s using firstYear.induct with
  | case1 c1 c2 c3 c4 rest hw =>
    rw [firstYear_cons, if_pos hw] at h
    simp only [Option.some.injEq, Prod.mk.injEq] at h
    obtain ⟨rfl, rfl⟩ := h
    exact ⟨hw.2.2.1, hw.2.2.2⟩
  | case2 c1 c2 c3 c4 rest hw ih =>
    rw [firstYear_cons, if_neg hw] at h
    exact ih h
  | case3 t hne =>
    exfalso
    rcases t with _ | ⟨x1, _ | ⟨x2, _ | ⟨x3, _ | ⟨x4, tt⟩⟩⟩⟩
    · rw [firstYear_short _ (by simp)] at h; exact Option.noConfusion h
    · rw [firstYear_short _ (by simp)] at h; exact Option.noConfusion h
    · rw [firstYear_short _ (by simp)] at h; exact Option.noConfusion h
    · rw [firstYear_short _ (by simp)] at h; exact Option.noConfusion h
    · exact hne x1 x2 x3 x4 tt rfl

theorem firstYear_none_inv (c1 c2 c3 c4 : Char) (t : List Char)
    (h : firstYear (c1 :: c2 :: c3 :: c4 :: t) = none) :
    ¬(c1 = '2' ∧ c2 = '0' ∧ c3.isDigit ∧ c4.isDigit)
      ∧ firstYear (c2 :: c3 :: c4 :: t) = none := by
  rw [firstYear_cons] at h
  by_cases w : c1 = '2' ∧ c2 = '0' ∧ c3.isDigit ∧ c4.isDigit
  · rw [if_pos w] at h; exact absurd h (by simp)
  · rw [if_neg w] at h; exact ⟨w, h⟩

/-- No skip-list literal contains a `20\d\d` token. -/
theorem skips_no_year : ∀ d ∈ deadlineSkips, firstYear d.data = none := by decide

/-- A string with a `20\d\d` token is neither empty nor a skip-list literal. -/
theorem firstYear_ne_skip (d : String) (p : Char × Char)
    (h : firstYear d.data = some p) : ¬(d = "" ∨ d ∈ deadlineSkips) := by
  rintro (rfl | hd)
  · have he : firstYear ("" : String).data = none := rfl
    rw [he] at h; exact Option.noConfusion h
  · rw [skips_no_year d hd] at h; exact Option.noConfusion h

/-- After replacing every occurrence of the first-matched year `20ab` (with
`a`, `b` digits) by `2025`, the first `20\d\d` token of the result is `2025`. -/
theorem firstYear_replaceChars (s : List Char) (a b : Char)
    (h : firstYear s = some (a, b)) :
    firstYear (replaceChars ['2', '0', a, b] ['2', '0', '2', '5'] s)
      = some ('2', '5') := by
  induction s using firstYear.induct with
  | case1 c1 c2 c3 c4 rest hw =>
    obtain ⟨hc1, hc2, hd3, hd4⟩ := hw
    subst hc1; subst hc2
    rw [firstYear_cons, if_pos ⟨rfl, rfl, hd3, hd4⟩] at h
    simp only [Option.some.injEq, Prod.mk.injEq] at h
    obtain ⟨rfl, rfl⟩ := h
    have hpre : (['2', '0', c3, c4]).isPrefixOf ('2' :: '0' :: c3 :: c4 :: rest) = true :=
      List.isPrefixOf_iff_prefix.mpr ⟨rest, rfl⟩
    rw [replaceChars_cons, if_pos ⟨by simp, hpre⟩]
    simp only [List.cons_append, List.nil_append]
    rw [firstYear_cons, if_pos ⟨rfl, rfl, by decide, by decide⟩]
  | case2 c1 c2 c3 c4 rest hw ih =>
    rw [firstYear_cons, if_neg hw] at h
    have hdig := firstYear_digits _ a b h
    have hR := ih h
    -- the pattern is not a prefix at the head position
    have hnp : ¬((['2', '0', a, b]).isPrefixOf (c1 :: c2 :: c3 :: c4 :: rest) = true) := by
      intro hp
      obtain ⟨tl, htl⟩ := List.isPrefixOf_iff_prefix.mp hp
      simp only [List.cons_append, List.nil_append, List.cons.injEq] at htl
      exact hw ⟨htl.1.symm, htl.2.1.symm, htl.2.2.1 ▸ hdig.1, (htl.2.2.2.1) ▸ hdig.2⟩
    rw [replaceChars_cons, if_neg (fun hc => hnp hc.2)]
    -- shape of the rewritten tail
    obtain ⟨r1, r2, r3, r4, rr, hRs⟩ := firstYear_shape _ _ hR
    rw [hRs] at hR ⊢
    rw [firstYear_cons]
    rw [if_neg ?wfail]
    · exact hR
    case wfail =>
      intro hW
      obtain ⟨hc1, hr1, hr2, hr3⟩ := hW
      -- determine r1, r2, r3 from the structure of the replacement of the tail
      by_cases hp2 : (['2', '0', a, b]).isPrefixOf (c2 :: c3 :: c4 :: rest) = true
      · -- the tail starts with the replacement text "2025", so r1 = '2' ≠ '0'
        rw [replaceChars_cons, if_pos ⟨by simp, hp2⟩] at hRs
        simp only [List.cons_append, List.nil_append, List.cons.injEq] at hRs
        exact absurd (hRs.1.trans hr1) (by decide)
      · rw [replaceChars_cons, if_neg (fun hc => hp2 hc.2)] at hRs
        simp only [List.cons.injEq] at hRs
        obtain ⟨hc2r, hRs2⟩ := hRs
        -- window failure at the original head gives ¬(c3 digit ∧ c4 digit)
        have hnc34 : ¬(c3.isDigit ∧ c4.isDigit) := by
          intro hcd
          exact hw ⟨hc1, hc2r.trans hr1, hcd.1, hcd.2⟩
        by_cases hp3 : (['2', '0', a, b]).isPrefixOf (c3 :: c4 :: rest) = true
        · obtain ⟨tl, htl⟩ := List.isPrefixOf_iff_prefix.mp hp3
          simp only [List.cons_append, List.nil_append, List.cons.injEq] at htl
          refine hnc34 ⟨?_, ?_⟩
          · rw [← htl.1]; decide
          · rw [← htl.2.1]; decide
        · rw [replaceChars_cons, if_neg (fun hc => hp3 hc.2)] at hRs2
          simp only [List.cons.injEq] at hRs2
          obtain ⟨hc3r, hRs3⟩ := hRs2
          have hc3d : c3.isDigit := by rw [hc3r]; exact hr2
          have hnc4 : ¬c4.isDigit = true := fun hc4 => hnc34 ⟨hc3d, hc4⟩
          by_cases hp4 : (['2', '0', a, b]).isPrefixOf (c4 :: rest) = true
          · obtain ⟨tl, htl⟩ := List.isPrefixOf_iff_prefix.mp hp4
            simp only [List.cons_append, List.nil_append, List.cons.injEq] at htl
            refine hnc4 ?_
            rw [← htl.1]; decide
          · rw [replaceChars_cons, if_neg (fun hc => hp4 hc.2)] at hRs3
            simp only [List.cons.injEq] at hRs3
            refine hnc4 ?_
            rw [hRs3.1]; exact hr3
  | case3 t hne =>
    exfalso
    rcases t with _ | ⟨x1, _ | ⟨x2, _ | ⟨x3, _ | ⟨x4, tt⟩⟩⟩⟩
    · rw [firstYear_short _ (by simp)] at h; exact Option.noConfusion h
    · rw [firstYear_short _ (by simp)] at h; exact Option.noConfusion h
    · rw [firstYear_short _ (by simp)] at h; exact Option.noConfusion h
    · rw [firstYear_short _ (by simp)] at h; exact Option.noConfusion h
    · exact hne x1 x2 x3 x4 tt rfl

/-- Appending a suffix whose first character is neither a digit nor `'0'` to a
string with no `20\d\d` token cannot create a year match before the suffix. -/
theorem firstYear_append (u : List Char) (u0 : Char) (ut : List Char)
    (hu : u = u0 :: ut) (hd0 : ¬u0.isDigit) (h00 : u0 ≠ '0') :
    ∀ s : List Char, firstYear s = none → firstYear (s ++ u) = firstYear u := by
  intro s
  induction s with
  | nil => simp
  | cons c t ih =>
    intro hs
    rcases t with _ | ⟨t1, _ | ⟨t2, _ | ⟨t3, tt⟩⟩⟩
    · -- s = [c]
      subst hu
      rcases ut with _ | ⟨u1, _ | ⟨u2, uu⟩⟩
      · rw [firstYear_short _ (by simp), firstYear_short _ (by simp)]
      · rw [firstYear_short _ (by simp), firstYear_short _ (by simp)]
      · show firstYear (c :: u0 :: u1 :: u2 :: uu) = _
        rw [firstYear_cons, if_neg (fun hw => h00 hw.2.1)]
    · -- s = [c, t1]
      subst hu
      rcases ut with _ | ⟨u1, uu⟩
      · rw [firstYear_short _ (by simp), firstYear_short _ (by simp)]
      · show firstYear (c :: t1 :: u0 :: u1 :: uu) = _
        rw [firstYear_cons, if_neg (fun hw => hd0 hw.2.2.1)]
        exact ih (firstYear_short _ (by simp))
    · -- s = [c, t1, t2]
      subst hu
      show firstYear (c :: t1 :: t2 :: u0 :: ut) = _
      rw [firstYear_cons, if_neg (fun hw => hd0 hw.2.2.2)]
      exact ih (firstYear_short _ (by simp))
    · -- s = c :: t1 :: t2 :: t3 :: tt
      have hinv := firstYear_none_inv c t1 t2 t3 tt hs
      show firstYear (c :: t1 :: t2 :: t3 :: (tt ++ u)) = _
      rw [firstYear_cons, if_neg hinv.1]
      exact ih hinv.2

/-- Idempotence of `_normalize_deadline`: every output is a fixed point. -/
theorem normalizeDeadline_idem (m : Nat) (d : String) :
    normalizeDeadline m (normalizeDeadline m d) = normalizeDeadline m d := by
  by_cases hskip : d = "" ∨ d ∈ deadlineSkips
  · have h1 := normalizeDeadline_eq_skip m d hskip
    rw [h1]
    exact h1
  · cases hy : firstYear d.data with
    | some p =>
      obtain ⟨a, b⟩ := p
      by_cases hlt : yearVal a b < 2025
      · rw [normalizeDeadline_eq_year m d a b hskip hy, if_pos hlt]
        have hy' : firstYear
            (⟨replaceChars ['2', '0', a, b] ['2', '0', '2', '5'] d.data⟩ : String).data
            = some ('2', '5') := firstYear_replaceChars d.data a b hy
        have hns' := firstYear_ne_skip _ _ hy'
        rw [normalizeDeadline_eq_year m _ '2' '5' hns' hy', if_neg (by decide)]
      · have h1 : normalizeDeadline m d = d := by
          rw [normalizeDeadline_eq_year m d a b hskip hy, if_neg hlt]
        rw [h1]
        exact h1
    | none =>
      cases hm : firstMonth (lowerStr d) with
      | some mn =>
        obtain ⟨nm, num⟩ := mn
        rw [normalizeDeadline_eq_month m d nm num hskip hy hm]
        by_cases hge : num ≥ m
        · rw [if_pos hge]
          have hy' : firstYear (d ++ " 2025").data = some ('2', '5') := by
            rw [String.data_append,
              firstYear_append [' ', '2', '0', '2', '5'] ' ' _ rfl (by decide) (by decide)
                d.data hy]
            decide
          have hns' := firstYear_ne_skip _ _ hy'
          rw [normalizeDeadline_eq_year m _ '2' '5' hns' hy', if_neg (by decide)]
        · rw [if_neg hge]
          have hy' : firstYear (d ++ " 2026").data = some ('2', '6') := by
            rw [String.data_append,
              firstYear_append [' ', '2', '0', '2', '6'] ' ' _ rfl (by decide) (by decide)
                d.data hy]
            decide
          have hns' := firstYear_ne_skip _ _ hy'
          rw [normalizeDeadline_eq_year m _ '2' '6' hns' hy', if_neg (by decide)]
      | none =>
        rw [normalizeDeadline_eq_nodate m d hskip hy hm]
        have hy' : firstYear (d ++ " (2025/2026)").data = some ('2', '5') := by
          rw [String.data_append,
            firstYear_append [' ', '(', '2', '0', '2', '5', '/', '2', '0', '2', '6', ')']
              ' ' _ rfl (by decide) (by decide) d.data hy]
          decide
        have hns' := firstYear_ne_skip _ _ hy'
        rw [normalizeDeadline_eq_year m _ '2' '5' hns' hy', if_neg (by decide)]

/-! ## Standardizer (`_standardize`, data_processor.py:241-303) -/

/-- The `country_map` synonym table of `_standardize_country`. -/
def countryMap : List (String × String) :=
  [("usa", "United States"), ("uk", "United Kingdom"), ("us", "United States"),
   ("britain", "United Kingdom"), ("deutschland", "Germany")]

/-- Model of `_standardize_country` (data_processor.py:263-274):
`country_map.get(country.lower().strip(), country.strip())`. -/
def standardizeCountry (country : String) : String :=
  match countryMap.lookup (stripStr (lowerStr country)) with
  | some v => v
  | none => stripStr country

/-- Model of `_standardize_degree` (data_processor.py:276-289): ordered substring
classification over the lower-cased degree. -/
def standardizeDegree (degree : String) : String :=
  let degreeLower := lowerStr degree
  if strIn "bachelor" degreeLower || strIn "undergraduate" degreeLower then "Bachelor's"
  else if strIn "master" degreeLower || strIn "postgraduate" degreeLower then "Master's"
  else if strIn "phd" degreeLower || strIn "doctoral" degreeLower
      || strIn "doctorate" degreeLower then "PhD"
  else if strIn "postdoc" degreeLower then "Postdoctoral"
  else degree

/-- Model of `_clean_text` (data_processor.py:291-303): falsy (empty) text becomes
`"Not specified"`; otherwise collapse whitespace runs, unescape `&nbsp;` and
`&amp;`, and strip. -/
def cleanText (text : String) : String :=
  if text = "" then "Not specified"
  else stripStr (replaceStr (replaceStr (wsCollapse text) "&nbsp;" " ") "&amp;" "&")

/-- Lines 256-259 of `_standardize`: prepend `https://` to a non-empty URL
lacking an `http` scheme prefix. -/
def urlFix (url : String) : String :=
  if url ≠ "" ∧ ¬strStarts url "http" then "https://" ++ url else url

/-- Model of `_standardize` (data_processor.py:241-261): a patched copy of the record.
The six text fields are the ones `_clean_text` is applied to; with fields
modelled as strings, an absent field is `""` (which `_clean_text` maps to
`"Not specified"`). -/
def standardize (sch : Record) : Record :=
  { sch with
    country := standardizeCountry sch.country,
    degree := standardizeDegree sch.degree,
    title := cleanText sch.title,
    field := cleanText sch.field,
    duration := cleanText sch.duration,
    funding := cleanText sch.funding,
    eligibility := cleanText sch.eligibility,
    documents := cleanText sch.documents,
    url := urlFix sch.url }

/-- One record's pass through step 3 (`_standardize`) and step 4 (in-place
deadline normalization) of `process_scholarships`. -/
def standardizeStep (m : Nat) (sch : Record) : Record :=
  { standardize sch with deadline := normalizeDeadline m (standardize sch).deadline }

/-! ### Idempotence facts for the standardizer components -/

theorem dropWhile_dropWhile (p : α → Bool) (l : List α) :
    (l.dropWhile p).dropWhile p = l.dropWhile p := by
  induction l with
  | nil => rfl
  | cons a t ih =>
    by_cases h : p a
    · rw [List.dropWhile_cons_of_pos h]
      exact ih
    · rw [List.dropWhile_cons_of_neg h, List.dropWhile_cons_of_neg h]

theorem dropWhile_eq_self_of_prefix (p : α → Bool) {l₁ l₂ : List α}
    (hp : l₁ <+: l₂) (h : l₂.dropWhile p = l₂) : l₁.dropWhile p = l₁ := by
  cases l₁ with
  | nil => rfl
  | cons a t =>
    obtain ⟨r, hr⟩ := hp
    subst hr
    rw [List.cons_append] at h
    by_cases hpa : p a
    · rw [List.dropWhile_cons_of_pos hpa] at h
      have h1 := dropWhile_len_le p (t ++ r)
      have h2 := congrArg List.length h
      simp only [List.length_cons] at h2
      omega
    · rw [List.dropWhile_cons_of_neg hpa]

theorem trimChars_no_leading (s : List Char) :
    (trimChars s).dropWhile pyWS = trimChars s := by
  have hAu : (s.dropWhile pyWS).dropWhile pyWS = s.dropWhile pyWS :=
    dropWhile_dropWhile pyWS s
  have hsuf : ((s.dropWhile pyWS).reverse.dropWhile pyWS)
      <:+ (s.dropWhile pyWS).reverse := List.dropWhile_suffix pyWS
  have hpre := hsuf.reverse
  rw [List.reverse_reverse] at hpre
  exact dropWhile_eq_self_of_prefix pyWS hpre hAu

theorem trimChars_idem (s : List Char) : trimChars (trimChars s) = trimChars s := by
  have h1 : (trimChars s).dropWhile pyWS = trimChars s := trimChars_no_leading s
  have h2 : (trimChars s).reverse = ((s.dropWhile pyWS).reverse).dropWhile pyWS := by
    unfold trimChars
    rw [List.reverse_reverse]
  calc trimChars (trimChars s)
      = (((trimChars s).dropWhile pyWS).reverse.dropWhile pyWS).reverse := rfl
    _ = ((trimChars s).reverse.dropWhile pyWS).reverse := by rw [h1]
    _ = ((((s.dropWhile pyWS).reverse).dropWhile pyWS).dropWhile pyWS).reverse := by
        rw [h2]
    _ = (((s.dropWhile pyWS).reverse).dropWhile pyWS).reverse := by
        rw [dropWhile_dropWhile]
    _ = trimChars s := rfl

theorem stripStr_idem (s : String) : stripStr (stripStr s) = stripStr s :=
  congrArg String.mk (trimChars_idem s.data)

theorem pyWS_false_of_toNat (c : Char) (h : 33 ≤ c.toNat) : pyWS c = false := by
  have hne : ∀ d : Char, d.toNat < 33 → c ≠ d := by
    intro d hd he
    subst he
    omega
  simp only [pyWS, Bool.or_eq_false_iff, decide_eq_false_iff_not]
  exact ⟨⟨⟨⟨⟨hne ' ' (by decide), hne '\t' (by decide)⟩, hne '\n' (by decide)⟩,
    hne '\r' (by decide)⟩, hne '\x0b' (by decide)⟩, hne '\x0c' (by decide)⟩

theorem pyWS_lowerChar (c : Char) : pyWS (lowerChar c) = pyWS c := by
  unfold lowerChar
  split
  · rename_i h
    have h1 : (Char.ofNat (c.toNat + 32)).toNat = c.toNat + 32 :=
      toNat_charOfNat _ (by omega) (by omega)
    rw [pyWS_false_of_toNat _ (by omega), pyWS_false_of_toNat _ (by omega)]
  · rfl

theorem lowerCharPy_ws (c : Char) (h : pyWS c = true) : lowerCharPy c = [c] := by
  have hc : ((((c = ' ' ∨ c = '\t') ∨ c = '\n') ∨ c = '\x0d') ∨ c = '\x0b')
      ∨ c = '\x0c' := by
    simpa [pyWS] using h
  rcases hc with ((((rfl | rfl) | rfl) | rfl) | rfl) | rfl <;> decide

theorem lowerCharPy_not_ws (c : Char) (h : pyWS c = false) :
    lowerCharPy c ≠ [] ∧ ∀ d ∈ lowerCharPy c, pyWS d = false := by
  unfold lowerCharPy
  split
  · refine ⟨by simp, ?_⟩
    intro d hd
    rcases List.mem_cons.mp hd with rfl | hd2
    · decide
    · rw [List.mem_singleton.mp hd2]
      decide
  · refine ⟨by simp, ?_⟩
    intro d hd
    rw [List.mem_singleton.mp hd, pyWS_lowerChar]
    exact h

/-- Dropping leading whitespace commutes with any block map that fixes
whitespace characters and sends a non-whitespace character to a nonempty
all-non-whitespace block. -/
theorem dropWhile_flatMap_blocks (f : Char → List Char)
    (hws : ∀ c, pyWS c = true → f c = [c])
    (hnws : ∀ c, pyWS c = false → f c ≠ [] ∧ ∀ d ∈ f c, pyWS d = false) :
    ∀ s : List Char, (s.flatMap f).dropWhile pyWS = (s.dropWhile pyWS).flatMap f := by
  intro s
  induction s with
  | nil => rfl
  | cons c t ih =>
    by_cases hc : pyWS c
    · rw [List.flatMap_cons, hws c hc, List.singleton_append,
        List.dropWhile_cons_of_pos hc, List.dropWhile_cons_of_pos hc]
      exact ih
    · have hb := hnws c (by simpa using hc)
      obtain ⟨d, ds, hfc⟩ := List.exists_cons_of_ne_nil hb.1
      have hd : pyWS d = false := hb.2 d (by rw [hfc]; exact List.mem_cons_self d ds)
      rw [List.dropWhile_cons_of_neg hc, List.flatMap_cons, hfc,
        List.cons_append, List.dropWhile_cons_of_neg (by simpa using hd)]

theorem trimChars_flatMap_lower (s : List Char) :
    trimChars (s.flatMap lowerCharPy) = (trimChars s).flatMap lowerCharPy := by
  have hgws : ∀ c, pyWS c = true → (List.reverse ∘ lowerCharPy) c = [c] := by
    intro c hc
    simp only [Function.comp_apply, lowerCharPy_ws c hc, List.reverse_singleton]
  have hgnws : ∀ c, pyWS c = false →
      (List.reverse ∘ lowerCharPy) c ≠ []
        ∧ ∀ d ∈ (List.reverse ∘ lowerCharPy) c, pyWS d = false := by
    intro c hc
    obtain ⟨h1, h2⟩ := lowerCharPy_not_ws c hc
    refine ⟨by simpa using h1, ?_⟩
    intro d hd
    simp only [Function.comp_apply, List.mem_reverse] at hd
    exact h2 d hd
  unfold trimChars
  rw [dropWhile_flatMap_blocks lowerCharPy lowerCharPy_ws lowerCharPy_not_ws,
    List.reverse_flatMap, dropWhile_flatMap_blocks _ hgws hgnws,
    List.reverse_flatMap]
  congr 1
  funext c
  simp [Function.comp]

theorem stripStr_lowerStr (s : String) :
    stripStr (lowerStr (stripStr s)) = stripStr (lowerStr s) := by
  apply congrArg String.mk
  show trimChars ((trimChars s.data).flatMap lowerCharPy)
      = trimChars (s.data.flatMap lowerCharPy)
  rw [trimChars_flatMap_lower, trimChars_idem, trimChars_flatMap_lower]

theorem countryMap_values (k v : String) (h : countryMap.lookup k = some v) :
    v = "United States" ∨ v = "United Kingdom" ∨ v = "Germany" := by
  simp only [countryMap, List.lookup] at h
  split at h
  · exact Or.inl (Option.some.inj h).symm
  · split at h
    · exact Or.inr (Or.inl (Option.some.inj h).symm)
    · split at h
      · exact Or.inl (Option.some.inj h).symm
      · split at h
        · exact Or.inr (Or.inl (Option.some.inj h).symm)
        · split at h
          · exact Or.inr (Or.inr (Option.some.inj h).symm)
          · exact Option.noConfusion h

theorem standardizeCountry_idem (c : String) :
    standardizeCountry (standardizeCountry c) = standardizeCountry c := by
  cases hl : countryMap.lookup (stripStr (lowerStr c)) with
  | some v =>
    have h1 : standardizeCountry c = v := by
      unfold standardizeCountry
      rw [hl]
    rw [h1]
    rcases countryMap_values _ v hl with rfl | rfl | rfl <;> decide
  | none =>
    have h1 : standardizeCountry c = stripStr c := by
      unfold standardizeCountry
      rw [hl]
    rw [h1]
    unfold standardizeCountry
    rw [stripStr_lowerStr, hl, stripStr_idem]

theorem strStarts_https (u : String) : strStarts ("https://" ++ u) "http" = true := by
  have hd : ("https://" ++ u).data
      = 'h' :: 't' :: 't' :: 'p' :: 's' :: ':' :: '/' :: '/' :: u.data := by
    rw [String.data_append]
    rfl
  unfold strStarts
  rw [hd]
  exact List.isPrefixOf_iff_prefix.mpr ⟨'s' :: ':' :: '/' :: '/' :: u.data, rfl⟩

theorem urlFix_idem (u : String) : urlFix (urlFix u) = urlFix u := by
  unfold urlFix
  by_cases h : u ≠ "" ∧ ¬strStarts u "http"
  · rw [if_pos h, if_neg ?hne]
    case hne =>
      intro hcon
      exact hcon.2 (strStarts_https u)
  · rw [if_neg h, if_neg h]

theorem Record.extEq (r1 r2 : Record)
    (h1 : r1.title = r2.title) (h2 : r1.country = r2.country)
    (h3 : r1.degree = r2.degree) (h4 : r1.field = r2.field)
    (h5 : r1.duration = r2.duration) (h6 : r1.funding = r2.funding)
    (h7 : r1.eligibility = r2.eligibility) (h8 : r1.documents = r2.documents)
    (h9 : r1.deadline = r2.deadline) (h10 : r1.url = r2.url)
    (h11 : r1.description = r2.description)
    (h12 : r1.alternate_urls = r2.alternate_urls)
    (h13 : r1.match_score = r2.match_score) : r1 = r2 := by
  cases r1
  cases r2
  simp_all

/-- Counterexample to claim C5: The record with degree `"postdoc"` refutes
idempotence: the first standardization maps the degree to `"Postdoctoral"`,
and the second — because the ordered substring test finds `"doctoral"`
inside `"postdoctoral"` before it ever tests `"postdoc"` — maps it on to
`"PhD"`, so re-running the standardization step changes the record. -/
theorem standardize_not_idempotent :
    (standardizeStep 10 ({ degree := "postdoc" } : Record)).degree = "Postdoctoral"
    ∧ (standardizeStep 10 (standardizeStep 10 ({ degree := "postdoc" } : Record))).degree
        = "PhD"
    ∧ standardizeStep 10 (standardizeStep 10 ({ degree := "postdoc" } : Record))
        ≠ standardizeStep 10 ({ degree := "postdoc" } : Record) := by
  refine ⟨by decide, by decide, ?_⟩
  intro h
  have := congrArg Record.degree h
  revert this
  decide

set_option maxHeartbeats 1600000 in
/-- Claim C5, amended: The standardization step (`_standardize` followed by
the deadline normalization of step 4) is idempotent in all components
*except* degree re-classification and text re-cleaning: country
standardization, URL scheme-prefixing and deadline normalization are
unconditional fixed points on second application, and for every record whose
standardized degree is a fixed point of `_standardize_degree` and whose
cleaned text fields are fixed points of `_clean_text` (which fails only for
degrees like `"postdoc"` and for texts whose unescaping creates a fresh
`&amp;`/`&nbsp;` entity), re-running the step returns the record
unchanged, for any fixed current month. -/
theorem standardize_idempotent_amended (m : Nat) (sch : Record)
    (hdeg : standardizeDegree (standardizeDegree sch.degree) = standardizeDegree sch.degree)
    (htitle : cleanText (cleanText sch.title) = cleanText sch.title)
    (hfield : cleanText (cleanText sch.field) = cleanText sch.field)
    (hdur : cleanText (cleanText sch.duration) = cleanText sch.duration)
    (hfund : cleanText (cleanText sch.funding) = cleanText sch.funding)
    (helig : cleanText (cleanText sch.eligibility) = cleanText sch.eligibility)
    (hdocs : cleanText (cleanText sch.documents) = cleanText sch.documents) :
    standardizeStep m (standardizeStep m sch) = standardizeStep m sch := by
  apply Record.extEq
  · exact htitle
  · exact standardizeCountry_idem sch.country
  · exact hdeg
  · exact hfield
  · exact hdur
  · exact hfund
  · exact helig
  · exact hdocs
  · exact normalizeDeadline_idem m sch.deadline
  · exact urlFix_idem sch.url
  · rfl
  · rfl
  · rfl

/-- Witness for C5 (amended) at a concrete already-standardized record. -/
theorem standardize_idempotent_amended_witness :
    standardizeStep 10 (standardizeStep 10
      ({ title := "Chevening Scholarship", degree := "Master's",
         country := "United Kingdom", deadline := "Rolling" } : Record))
      = standardizeStep 10
      ({ title := "Chevening Scholarship", degree := "Master's",
         country := "United Kingdom", deadline := "Rolling" } : Record) :=
  standardize_idempotent_amended 10 _ (by decide) (by decide) (by decide)
    (by decide) (by decide) (by decide) (by decide)

/-! ## Stable descending sort

Python's `list.sort(key=…, reverse=True)` is a stable descending sort
(Timsort; `reverse=True` preserves stability).  It is modelled as an
insertion sort in which each element is inserted after all previously placed
elements whose key is ≥ its own. -/

section StableSort

variable {α : Type} {β : Type} [LinearOrder β]

/-- Insert `x` below every element of key ≥ `key x`. -/
def insDesc (key : α → β) (x : α) : List α → List α
  | [] => [x]
  | y :: ys => if key x ≤ key y then y :: insDesc key x ys else x :: y :: ys

/-- Stable descending sort by `key`. -/
def stableSortDesc (key : α → β) (l : List α) : List α :=
  l.foldl (fun acc x => insDesc key x acc) []

/-- Descending sortedness by `key`. -/
def SortedDesc (key : α → β) (l : List α) : Prop :=
  l.Pairwise (fun a b => key b ≤ key a)

theorem insDesc_perm (key : α → β) (x : α) (l : List α) :
    (insDesc key x l).Perm (x :: l) := by
  induction l with
  | nil => exact List.Perm.refl _
  | cons y ys ih =>
    unfold insDesc
    by_cases h : key x ≤ key y
    · rw [if_pos h]
      exact (ih.cons y).trans (List.Perm.swap x y ys)
    · rw [if_neg h]

theorem insDesc_sorted (key : α → β) (x : α) (l : List α) (h : SortedDesc key l) :
    SortedDesc key (insDesc key x l) := by
  induction l with
  | nil => simp [insDesc, SortedDesc]
  | cons y ys ih =>
    rw [SortedDesc, List.pairwise_cons] at h
    unfold insDesc
    by_cases hxy : key x ≤ key y
    · rw [if_pos hxy]
      rw [SortedDesc, List.pairwise_cons]
      refine ⟨?_, ih h.2⟩
      intro b hb
      rcases List.mem_cons.mp ((insDesc_perm key x ys).mem_iff.mp hb) with rfl | hbys
      · exact hxy
      · exact h.1 b hbys
    · rw [if_neg hxy]
      rw [SortedDesc, List.pairwise_cons]
      refine ⟨?_, List.pairwise_cons.mpr ⟨h.1, h.2⟩⟩
      intro b hb
      rcases List.mem_cons.mp hb with rfl | hbys
      · exact le_of_not_le hxy
      · exact le_trans (h.1 b hbys) (le_of_not_le hxy)

theorem insDesc_filter (key : α → β) (x : α) (l : List α) (hs : SortedDesc key l)
    (q : β) :
    (insDesc key x l).filter (fun a => key a == q)
      = if key x == q then l.filter (fun a => key a == q) ++ [x]
        else l.filter (fun a => key a == q) := by
  induction l with
  | nil =>
    by_cases hxq : key x == q <;> simp [insDesc, List.filter, hxq]
  | cons y ys ih =>
    have hcons := List.pairwise_cons.mp hs
    unfold insDesc
    by_cases hxy : key x ≤ key y
    · rw [if_pos hxy, List.filter_cons, List.filter_cons, ih hcons.2]
      by_cases hyq : key y == q <;> by_cases hxq : key x == q <;>
        simp [hyq, hxq, List.cons_append]
    · rw [if_neg hxy]
      have hlt : ∀ b ∈ y :: ys, key b < key x := by
        intro b hb
        rcases List.mem_cons.mp hb with rfl | hbys
        · exact lt_of_not_le hxy
        · exact lt_of_le_of_lt (hcons.1 b hbys) (lt_of_not_le hxy)
      by_cases hxq : key x == q
      · have hq : key x = q := by simpa using hxq
        have hnil : (y :: ys).filter (fun a => key a == q) = [] := by
          rw [List.filter_eq_nil_iff]
          intro b hb
          simp only [beq_iff_eq]
          exact ne_of_lt (hq ▸ hlt b hb)
        rw [List.filter_cons, if_pos (by simpa using hxq), hnil]
        simp [hxq]
      · rw [List.filter_cons, if_neg (by simpa using hxq)]
        simp [hxq]

theorem sortGo_perm (key : α → β) (l acc : List α) :
    (l.foldl (fun a x => insDesc key x a) acc).Perm (acc ++ l) := by
  induction l generalizing acc with
  | nil => simp
  | cons x xs ih =>
    simp only [List.foldl_cons]
    refine (ih _).trans (((insDesc_perm key x acc).append_right xs).trans ?_)
    rw [List.cons_append]
    exact List.perm_middle.symm

theorem sortGo_sorted (key : α → β) (l acc : List α) (h : SortedDesc key acc) :
    SortedDesc key (l.foldl (fun a x => insDesc key x a) acc) := by
  induction l generalizing acc with
  | nil => exact h
  | cons x xs ih =>
    simp only [List.foldl_cons]
    exact ih _ (insDesc_sorted key x acc h)

theorem sortGo_filter (key : α → β) (l acc : List α) (h : SortedDesc key acc) (q : β) :
    (l.foldl (fun a x => insDesc key x a) acc).filter (fun a => key a == q)
      = acc.filter (fun a => key a == q) ++ l.filter (fun a => key a == q) := by
  induction l generalizing acc with
  | nil => simp
  | cons x xs ih =>
    simp only [List.foldl_cons]
    rw [ih _ (insDesc_sorted key x acc h), insDesc_filter key x acc h q,
      List.filter_cons]
    by_cases hxq : key x == q
    · rw [if_pos hxq, if_pos (by simpa using hxq)]
      simp [List.append_assoc]
    · rw [if_neg hxq, if_neg (by simpa using hxq)]

theorem stableSortDesc_perm (key : α → β) (l : List α) :
    (stableSortDesc key l).Perm l := by
  simpa using sortGo_perm key l []

theorem stableSortDesc_sorted (key : α → β) (l : List α) :
    SortedDesc key (stableSortDesc key l) :=
  sortGo_sorted key l [] List.Pairwise.nil

theorem stableSortDesc_filter (key : α → β) (l : List α) (q : β) :
    (stableSortDesc key l).filter (fun a => key a == q)
      = l.filter (fun a => key a == q) :=
  (sortGo_filter key l [] List.Pairwise.nil q).trans (by simp)

/-- The head of a nonempty filter output is the earliest element of the list
satisfying the predicate. -/
theorem filter_head_index (p : α → Bool) (l : List α) (b : α) (rest : List α)
    (h : l.filter p = b :: rest) :
    ∃ i : Nat, l[i]? = some b ∧ p b
      ∧ ∀ j, j < i → ∀ x, l[j]? = some x → p x = false := by
  induction l generalizing rest with
  | nil => simp at h
  | cons a t ih =>
    rw [List.filter_cons] at h
    by_cases hpa : p a
    · rw [if_pos hpa] at h
      injection h with h1 h2
      subst h1
      exact ⟨0, by simp, hpa, fun j hj => absurd hj (by omega)⟩
    · rw [if_neg hpa] at h
      obtain ⟨i, hi, hpb, hjs⟩ := ih _ h
      refine ⟨i + 1, by simpa using hi, hpb, ?_⟩
      intro j hj x hx
      cases j with
      | zero =>
        simp only [List.getElem?_cons_zero, Option.some.injEq] at hx
        rw [← hx]
        simpa using hpa
      | succ j2 =>
        apply hjs j2 (by omega) x
        simpa using hx

end StableSort

/-! ## Group resolver: `_pick_best_entry` (data_processor.py:161-186) -/

/-- The placeholder blacklist of the `completeness_score` closure
(data_processor.py:172-173). -/
def placeholderVals : List String :=
  ["N/A", "Varies", "Not specified", "See website", "Check website",
   "Various", "Rolling", "Rolling deadlines"]

/-- One field's contribution to the completeness score: its character length
when the value is non-empty (truthy) and not a placeholder literal. -/
def fieldLen (v : String) : Nat :=
  if v ≠ "" ∧ v ∉ placeholderVals then v.length else 0

/-- The `completeness_score` closure of `_pick_best_entry` (lines 167-175):
the sum over the ten informative fields, in their listed order. -/
def completenessScore (sch : Record) : Nat :=
  fieldLen sch.title + fieldLen sch.country + fieldLen sch.degree
    + fieldLen sch.field + fieldLen sch.duration + fieldLen sch.funding
    + fieldLen sch.eligibility + fieldLen sch.documents + fieldLen sch.deadline
    + fieldLen sch.url

/-- The alternate-URL list `list(set(...))` computed by `_pick_best_entry`
over the (already sorted, because `group.sort` mutates in place) group:
the non-empty URLs, deduplicated (first-seen order standing in for CPython's
unspecified set order). -/
def groupUrls (group : List Record) : List String :=
  dedupKeepFirst
    (((stableSortDesc completenessScore group).map Record.url).filter (fun u => u ≠ ""))

/-- Model of `_pick_best_entry` (data_processor.py:161-186): a single-member group
passes through; otherwise the group is stable-sorted by descending
completeness, the first (earliest maximal) member is copied, and when more
than one distinct non-empty URL exists among the members the whole
deduplicated URL list is attached as `alternate_urls`. -/
def pickBestEntry (group : List Record) : Record :=
  if group.length == 1 then group.headD {}
  else
    let sorted := stableSortDesc completenessScore group
    let best := sorted.headD {}
    if (groupUrls group).length > 1 then
      { best with alternate_urls := some (groupUrls group) }
    else best

theorem dedupGo_mem (l : List String) :
    ∀ seen u, u ∈ dedupGo seen l ↔ u ∈ l ∧ u ∉ seen := by
  induction l with
  | nil => simp [dedupGo]
  | cons x xs ih =>
    intro seen u
    unfold dedupGo
    by_cases hx : x ∈ seen
    · rw [if_pos hx, ih]
      constructor
      · rintro ⟨hu, hs⟩
        exact ⟨List.mem_cons.mpr (Or.inr hu), hs⟩
      · rintro ⟨hu, hs⟩
        rcases List.mem_cons.mp hu with rfl | h2
        · exact absurd hx hs
        · exact ⟨h2, hs⟩
    · rw [if_neg hx]
      constructor
      · intro hu
        rcases List.mem_cons.mp hu with rfl | h2
        · exact ⟨List.mem_cons_self u xs, hx⟩
        · obtain ⟨h3, h4⟩ := (ih _ u).mp h2
          exact ⟨List.mem_cons.mpr (Or.inr h3),
            fun hc => h4 (List.mem_cons.mpr (Or.inr hc))⟩
      · rintro ⟨hu, hs⟩
        rcases List.mem_cons.mp hu with rfl | h2
        · exact List.mem_cons_self u _
        · by_cases hux : u = x
          · subst hux
            exact List.mem_cons_self u _
          · refine List.mem_cons.mpr (Or.inr ((ih _ u).mpr ⟨h2, ?_⟩))
            intro hc
            rcases List.mem_cons.mp hc with h5 | h6
            · exact hux h5
            · exact hs h6

theorem dedupGo_nodup (l : List String) : ∀ seen, (dedupGo seen l).Nodup := by
  induction l with
  | nil => simp [dedupGo]
  | cons x xs ih =>
    intro seen
    unfold dedupGo
    by_cases hx : x ∈ seen
    · rw [if_pos hx]
      exact ih seen
    · rw [if_neg hx]
      rw [List.nodup_cons]
      refine ⟨?_, ih _⟩
      intro hc
      exact ((dedupGo_mem xs _ x).mp hc).2 (List.mem_cons_self x seen)

theorem dedupKeepFirst_mem (l : List String) (u : String) :
    u ∈ dedupKeepFirst l ↔ u ∈ l := by
  rw [dedupKeepFirst, dedupGo_mem]
  simp

theorem dedupKeepFirst_nodup (l : List String) : (dedupKeepFirst l).Nodup :=
  dedupGo_nodup l []

/-- The two concrete group members used to refute C2's description of
`alternate_urls`: the first is strictly more complete and is chosen as the
canonical record. -/
def cxGroupA : Record := { title := "DAAD Study Scholarship Detailed", url := "https://a.example" }

/-- The less complete second member of the counterexample group. -/
def cxGroupB : Record := { title := "DAAD", url := "https://b.example" }

/-- Counterexample to claim C2: In the group `[cxGroupA, cxGroupB]` the canonical
record is `cxGroupA` (url `https://a.example`), yet the attached
`alternate_urls` contains the canonical record's *own* URL as well — the code
collects the URLs of *all* group members, not only the other members as the
claim states (so the list also cannot equal the claimed
`["https://b.example"]`, whatever order the Python set iterates in). -/
theorem pickBestEntry_alt_counterexample :
    (pickBestEntry [cxGroupA, cxGroupB]).url = "https://a.example"
    ∧ (pickBestEntry [cxGroupA, cxGroupB]).alternate_urls
        = some ["https://a.example", "https://b.example"] := by
  constructor <;> decide

/-- Claim C2, amended: For a multi-member group with more than one distinct
non-empty URL, the canonical record's `alternate_urls` holds exactly the
distinct non-empty URLs of *all* group members (the canonical record's own
URL included), without duplicates, in an order that is CPython set-iteration
order (unspecified; the embedding fixes first-seen order over the sorted
group).  When at most one distinct non-empty URL exists — or the group is a
singleton — and no member carries an `alternate_urls` key, none is
attached. -/
theorem pickBestEntry_alternate_urls (g : List Record) :
    (g.length ≠ 1 → 1 < (groupUrls g).length →
      (pickBestEntry g).alternate_urls = some (groupUrls g)
      ∧ (groupUrls g).Nodup
      ∧ ∀ u, u ∈ groupUrls g ↔ (∃ r ∈ g, r.url = u) ∧ u ≠ "")
    ∧ ((∀ r ∈ g, r.alternate_urls = none) → ¬(1 < (groupUrls g).length) →
      (pickBestEntry g).alternate_urls = none) := by
  constructor
  · intro hlen hurls
    refine ⟨?_, dedupKeepFirst_nodup _, ?_⟩
    · unfold pickBestEntry
      rw [if_neg (by simpa using hlen), if_pos hurls]
    · intro u
      rw [groupUrls, dedupKeepFirst_mem, List.mem_filter, List.mem_map]
      constructor
      · rintro ⟨⟨r, hr, rfl⟩, hne⟩
        exact ⟨⟨r, (stableSortDesc_perm completenessScore g).subset hr, rfl⟩,
          by simpa using hne⟩
      · rintro ⟨⟨r, hr, rfl⟩, hne⟩
        exact ⟨⟨r, (stableSortDesc_perm completenessScore g).symm.subset hr, rfl⟩,
          by simpa using hne⟩
  · intro hnone hurls
    unfold pickBestEntry
    by_cases hl1 : g.length == 1
    · rw [if_pos hl1]
      cases g with
      | nil => simp at hl1
      | cons a t =>
        cases t with
        | nil => exact hnone a (List.mem_cons_self a [])
        | cons b u => simp at hl1
    · rw [if_neg hl1, if_neg hurls]
      cases hs : stableSortDesc completenessScore g with
      | nil => rfl
      | cons b rest =>
        show b.alternate_urls = none
        apply hnone
        exact (stableSortDesc_perm completenessScore g).subset
          (hs ▸ List.mem_cons_self b rest)

/-- Witness for C2 (amended) at the concrete two-member group. -/
theorem pickBestEntry_alternate_urls_witness :
    (pickBestEntry [cxGroupA, cxGroupB]).alternate_urls
      = some (groupUrls [cxGroupA, cxGroupB]) :=
  ((pickBestEntry_alternate_urls [cxGroupA, cxGroupB]).1 (by decide) (by decide)).1

/-- The chosen canonical record of a group: some member `b` at index `i`
such that the picked record equals `b` up to the added `alternate_urls`
field, `b` has maximal completeness, and every earlier member has strictly
smaller completeness. -/
def EarliestBest (g : List Record) (b : Record) : Prop :=
  ∃ (i : Nat) (r : Record), g[i]? = some r
    ∧ ({ b with alternate_urls := r.alternate_urls } = r)
    ∧ (∀ x ∈ g, completenessScore x ≤ completenessScore r)
    ∧ (∀ j, j < i → ∀ x, g[j]? = some x →
        completenessScore x < completenessScore r)

/-- Claim C3: For every non-empty group, `_pick_best_entry` returns (up to the
added `alternate_urls` field) the member with maximal completeness score —
the sum of character lengths of the ten informative non-placeholder fields —
and on ties the member appearing earliest in the group's original order
(`group.sort(..., reverse=True)` is stable, so `group[0]` after the sort is
the earliest maximum). -/
theorem pickBestEntry_earliest_max (g : List Record) (hg : g ≠ []) :
    EarliestBest g (pickBestEntry g) := by
  by_cases h1 : g.length == 1
  · obtain ⟨r, rfl⟩ : ∃ r, g = [r] := by
      cases g with
      | nil => simp at h1
      | cons a t =>
        cases t with
        | nil => exact ⟨a, rfl⟩
        | cons b u => simp at h1
    have hpb : pickBestEntry [r] = r := by
      unfold pickBestEntry
      rw [if_pos (by simp)]
      rfl
    refine ⟨0, r, rfl, ?_, ?_, ?_⟩
    · rw [hpb]
    · intro x hx
      rcases List.mem_cons.mp hx with rfl | hx2
      · exact le_refl _
      · simp at hx2
    · intro j hj
      exact absurd hj (by omega)
  · have hgpos : 0 < g.length := List.length_pos.mpr hg
    have hperm := stableSortDesc_perm completenessScore g
    have hsorted := stableSortDesc_sorted completenessScore g
    have hslen : (stableSortDesc completenessScore g).length = g.length :=
      hperm.length_eq
    obtain ⟨b, rest, hsort⟩ :
        ∃ b rest, stableSortDesc completenessScore g = b :: rest := by
      cases hsq : stableSortDesc completenessScore g with
      | nil => rw [hsq] at hslen; simp at hslen; omega
      | cons b rest => exact ⟨b, rest, rfl⟩
    have hpb : ∃ altv, pickBestEntry g = { b with alternate_urls := altv } := by
      unfold pickBestEntry
      rw [if_neg h1, hsort]
      by_cases hu : (groupUrls g).length > 1
      · rw [if_pos hu]
        exact ⟨some (groupUrls g), rfl⟩
      · rw [if_neg hu]
        exact ⟨b.alternate_urls, rfl⟩
    obtain ⟨altv, hpbe⟩ := hpb
    have hmax : ∀ x ∈ g, completenessScore x ≤ completenessScore b := by
      intro x hx
      have hx2 : x ∈ b :: rest := hsort ▸ hperm.symm.subset hx
      rcases List.mem_cons.mp hx2 with rfl | hxr
      · exact le_refl _
      · have hp := hsort ▸ hsorted
        exact (List.pairwise_cons.mp hp).1 x hxr
    have heq : g.filter (fun a => completenessScore a == completenessScore b)
        = b :: rest.filter (fun a => completenessScore a == completenessScore b) := by
      have hf := stableSortDesc_filter completenessScore g (completenessScore b)
      rw [hsort, List.filter_cons, if_pos (by simp)] at hf
      exact hf.symm
    obtain ⟨i, hi, _, hjs⟩ := filter_head_index _ g b _ heq
    refine ⟨i, b, hi, ?_, hmax, ?_⟩
    · rw [hpbe]
    · intro j hj x hx
      have hpx := hjs j hj x hx
      have hxg : x ∈ g := by
        obtain ⟨hjl, he⟩ := List.getElem?_eq_some_iff.mp hx
        rw [← he]
        exact List.getElem_mem hjl
      have hle := hmax x hxg
      have hne : completenessScore x ≠ completenessScore b := by
        simpa using hpx
      omega

/-- Witness for C3 at a concrete two-member group (the more complete second
member wins, so the chosen index is 1 and the first member scores strictly
less). -/
theorem pickBestEntry_earliest_max_witness :
    EarliestBest [cxGroupB, cxGroupA] (pickBestEntry [cxGroupB, cxGroupA]) :=
  pickBestEntry_earliest_max [cxGroupB, cxGroupA] (by decide)

/-! ## Ranking (`match_and_rank`, matcher.py:20-30) and in-place mutation -/

/-- The in-place assignment `scholarship['match_score'] = score` of
`match_and_rank`: the state of an input record after the call. -/
def scoreMutate (profile : Profile) (sch : Record) : Record :=
  { sch with match_score := some (calculateMatchScore sch profile) }

/-- The sort key `x['match_score']`; after `scoreMutate` the key is always
present, so the `getD 0` default is never exercised by `match_and_rank`. -/
def scoreKey (sch : Record) : Int := sch.match_score.getD 0

/-- Model of `match_and_rank` (matcher.py:20-30): score every record — writing the
score into the record itself — then stable-sort by descending score. -/
def matchAndRank (scholarships : List Record) (profile : Profile) : List Record :=
  stableSortDesc scoreKey (scholarships.map (scoreMutate profile))

/-- The in-place assignment `s['deadline'] = self._normalize_deadline(...)`
performed by step 4 of `process_scholarships` on each standardized record. -/
def deadlineMutate (m : Nat) (sch : Record) : Record :=
  { sch with deadline := normalizeDeadline m sch.deadline }

/-- Claim C8: For every list of scored records — records whose `match_score`
already equals the score `_calculate_match_score` computes for them, so that
the in-place rescoring is the identity — and every profile, `match_and_rank`
outputs a permutation of the input, sorted by descending `match_score`, in
which the records carrying any given score value appear in exactly their
relative input order (stability). -/
theorem matchAndRank_stable_sort (l : List Record) (profile : Profile)
    (h : ∀ sch ∈ l, scoreMutate profile sch = sch) :
    (matchAndRank l profile).Perm l
    ∧ SortedDesc scoreKey (matchAndRank l profile)
    ∧ ∀ q : Int, (matchAndRank l profile).filter (fun sch => scoreKey sch == q)
        = l.filter (fun sch => scoreKey sch == q) := by
  have hmap : l.map (scoreMutate profile) = l := by
    rw [List.map_congr_left h]
    exact List.map_id l
  unfold matchAndRank
  rw [hmap]
  exact ⟨stableSortDesc_perm _ _, stableSortDesc_sorted _ _,
    fun q => stableSortDesc_filter _ _ q⟩

/-- Witness for C8 at a concrete pre-scored singleton list (the empty profile
gives the record the neutral score 15+10+10+5+3 = 43). -/
theorem matchAndRank_stable_sort_witness :
    (matchAndRank [({ match_score := some 43 } : Record)] ({} : Profile)).Perm
      [({ match_score := some 43 } : Record)] :=
  (matchAndRank_stable_sort [({ match_score := some 43 } : Record)] {}
    (by decide)).1

/-- Counterexample to claim C9: `match_and_rank` mutates the record values handed
to it by the earlier stages: it assigns `scholarship['match_score'] = score`
on each input dict, so a record arriving without a `match_score` key is
changed by the call — the claim that no later stage changes a record value
produced earlier is false (the same holds for step 4 of
`process_scholarships`, which overwrites `deadline` in place). -/
theorem stage_mutation_counterexample :
    scoreMutate ({} : Profile) ({ title := "Chevening Scholarship" } : Record)
      ≠ ({ title := "Chevening Scholarship" } : Record)
    ∧ (scoreMutate ({} : Profile) ({ title := "Chevening Scholarship" } : Record)).match_score
        = some 43
    ∧ ({ title := "Chevening Scholarship" } : Record).match_score = none := by
  refine ⟨?_, by decide, by decide⟩
  intro h
  have h2 := congrArg Record.match_score h
  revert h2
  decide

/-- Claim C9, amended: Later stages do mutate records produced by earlier
stages, but only in two fields: step 4 of `process_scholarships` overwrites
each standardized record's `deadline` in place, and `match_and_rank` writes
`match_score` into each record passed to it.  No other field of an
earlier-stage record is changed, and the ranked output is exactly a
permutation of the post-mutation input records (the same dict objects). -/
theorem stage_mutation_amended (m : Nat) (profile : Profile) (sch : Record)
    (l : List Record) :
    ({ scoreMutate profile sch with match_score := sch.match_score } = sch)
    ∧ ({ deadlineMutate m sch with deadline := sch.deadline } = sch)
    ∧ (matchAndRank l profile).Perm (l.map (scoreMutate profile)) :=
  ⟨rfl, rfl, stableSortDesc_perm _ _⟩

/-! ## Smart deduplication (`_smart_deduplicate`, data_processor.py:79-114) -/

/-- The noise words stripped by `_normalize_title`, in replacement order. -/
def noiseWords : List String :=
  ["scholarship", "scholarships", "program", "programme",
   "the", "and", "for", "in", "at", "to", "of", "on",
   "-", "–", "—", "(", ")", ",", "."]

/-- Model of `_normalize_title` (data_processor.py:188-201): lower-case and strip,
replace each noise word by a space (sequentially), collapse whitespace runs
and strip, then keep the first five words joined by single spaces. -/
def normalizeTitle (title : String) : String :=
  let t1 := stripStr (lowerStr title)
  let t2 := noiseWords.foldl (fun acc w => replaceStr acc w " ") t1
  let t3 := stripStr ⟨squeezeWS t2.data⟩
  ⟨List.intercalate [' '] ((splitPy t3.data).take 5)⟩

/-- The `full_key = f"{family}:{sub_key}"` of a record, or `none` when no
family is recognized. -/
def recordKey (sch : Record) : Option String :=
  let family := identifyFamily sch
  if family ≠ "" then some (family ++ ":" ++ getSubKey sch family) else none

/-- Model of `family_groups[full_key].append(sch)` on an insertion-ordered dict
modelled as an association list: append to the existing group, or create a
new group at the end on first sight of the key. -/
def addToGroups (gs : List (String × List Record)) (key : String) (sch : Record) :
    List (String × List Record) :=
  match gs with
  | [] => [(key, [sch])]
  | (k, g) :: rest =>
    if k = key then (k, g ++ [sch]) :: rest
    else (k, g) :: addToGroups rest key sch

/-- One iteration of the grouping loop (data_processor.py:85-94): a record
with a recognized family joins its `family:sub_key` group, the rest are
appended to `ungrouped`. -/
def groupStep (acc : List (String × List Record) × List Record) (sch : Record) :
    List (String × List Record) × List Record :=
  let family := identifyFamily sch
  if family ≠ "" then
    (addToGroups acc.1 (family ++ ":" ++ getSubKey sch family) sch, acc.2)
  else
    (acc.1, acc.2 ++ [sch])

/-- The title-similarity fallback (data_processor.py:104-112): keep the first
record under each normalized-title signature (`seen_titles` is a set; list
membership models it). -/
def dedupUngrouped (seen : List String) : List Record → List Record
  | [] => []
  | sch :: rest =>
    if normalizeTitle sch.title ∈ seen then dedupUngrouped seen rest
    else sch :: dedupUngrouped (normalizeTitle sch.title :: seen) rest

/-- Model of `_smart_deduplicate` (data_processor.py:79-114): group by family key,
keep the best entry of each group (in key insertion order), then the
title-deduplicated ungrouped records. -/
def smartDeduplicate (scholarships : List Record) : List Record :=
  let acc := scholarships.foldl groupStep ([], [])
  acc.1.map (fun kg => pickBestEntry kg.2) ++ dedupUngrouped [] acc.2

/-- Model of `process_scholarships` (data_processor.py:31-54): validity filter,
deduplication, standardization, then the in-place deadline loop. -/
def processScholarships (m : Nat) (scholarships : List Record) : List Record :=
  ((smartDeduplicate (scholarships.filter isValid)).map standardize).map
    (deadlineMutate m)

/-! ### Invariants of the grouping fold -/

/-- The grouping invariant: distinct keys, and every group nonempty with all
members carrying that full key. -/
def GroupsInv (gs : List (String × List Record)) : Prop :=
  (gs.map Prod.fst).Nodup
  ∧ ∀ kg ∈ gs, kg.2 ≠ [] ∧ ∀ r ∈ kg.2, recordKey r = some kg.1

/-- Ungrouped records carry no family. -/
def UngInv (ug : List Record) : Prop := ∀ r ∈ ug, identifyFamily r = ""

theorem groupStep_eq_grouped (acc : List (String × List Record) × List Record)
    (sch : Record) (k : String) (h : recordKey sch = some k) :
    groupStep acc sch = (addToGroups acc.1 k sch, acc.2) := by
  simp only [recordKey] at h
  simp only [groupStep]
  by_cases hf : identifyFamily sch ≠ ""
  · rw [if_pos hf] at h ⊢
    rw [(Option.some.inj h)]
  · rw [if_neg hf] at h
    exact Option.noConfusion h

theorem groupStep_eq_ungrouped (acc : List (String × List Record) × List Record)
    (sch : Record) (h : identifyFamily sch = "") :
    groupStep acc sch = (acc.1, acc.2 ++ [sch]) := by
  simp only [groupStep]
  rw [if_neg (by simpa using h)]

theorem recordKey_some_of_family (sch : Record) (h : identifyFamily sch ≠ "") :
    recordKey sch = some (identifyFamily sch ++ ":" ++ getSubKey sch (identifyFamily sch)) := by
  simp only [recordKey]
  rw [if_pos h]

theorem recordKey_none_iff (sch : Record) :
    recordKey sch = none ↔ identifyFamily sch = "" := by
  simp only [recordKey]
  by_cases h : identifyFamily sch ≠ ""
  · rw [if_pos h]
    simp [h]
  · rw [if_neg h]
    simpa using h

theorem addToGroups_keys (gs : List (String × List Record)) (key : String)
    (sch : Record) :
    (addToGroups gs key sch).map Prod.fst
      = if key ∈ gs.map Prod.fst then gs.map Prod.fst
        else gs.map Prod.fst ++ [key] := by
  induction gs with
  | nil => simp [addToGroups]
  | cons kg rest ih =>
    obtain ⟨k, g⟩ := kg
    simp only [addToGroups]
    by_cases hk : k = key
    · subst hk
      simp
    · rw [if_neg hk]
      simp only [List.map_cons, ih]
      by_cases hmem : key ∈ rest.map Prod.fst
      · rw [if_pos hmem, if_pos (by simp [hmem])]
      · rw [if_neg hmem, if_neg (by simp [hmem, Ne.symm hk]), List.cons_append]

theorem addToGroups_notmem (gs : List (String × List Record)) (key : String)
    (sch : Record) (h : key ∉ gs.map Prod.fst) :
    addToGroups gs key sch = gs ++ [(key, [sch])] := by
  induction gs with
  | nil => rfl
  | cons kg rest ih =>
    obtain ⟨k, g⟩ := kg
    simp only [List.map_cons, List.mem_cons] at h
    push_neg at h
    simp only [addToGroups]
    rw [if_neg (fun he => h.1 he.symm), List.cons_append, ih h.2]

theorem addToGroups_inv (gs : List (String × List Record)) (key : String)
    (sch : Record) (hinv : GroupsInv gs) (hr : recordKey sch = some key) :
    GroupsInv (addToGroups gs key sch) := by
  obtain ⟨hnd, hmem⟩ := hinv
  constructor
  · rw [addToGroups_keys]
    by_cases hk : key ∈ gs.map Prod.fst
    · rw [if_pos hk]
      exact hnd
    · rw [if_neg hk]
      apply List.Nodup.append hnd (List.nodup_singleton key)
      intro a ha hb
      rw [List.mem_singleton] at hb
      subst hb
      exact hk ha
  · clear hnd
    induction gs with
    | nil =>
      intro kg hkg
      simp only [addToGroups, List.mem_singleton] at hkg
      subst hkg
      exact ⟨by simp, by simpa using hr⟩
    | cons kg0 rest ih =>
      obtain ⟨k, g⟩ := kg0
      intro kg hkg
      simp only [addToGroups] at hkg
      by_cases hk : k = key
      · subst hk
        rw [if_pos rfl] at hkg
        rcases List.mem_cons.mp hkg with rfl | h2
        · have h0 := hmem (k, g) (List.mem_cons_self _ _)
          refine ⟨by simp, ?_⟩
          intro r hrm
          rcases List.mem_append.mp hrm with h3 | h3
          · exact h0.2 r h3
          · rw [List.mem_singleton.mp h3]
            exact hr
        · exact hmem kg (List.mem_cons.mpr (Or.inr h2))
      · rw [if_neg hk] at hkg
        rcases List.mem_cons.mp hkg with h1 | h2
        · subst h1
          exact hmem (k, g) (List.mem_cons_self _ _)
        · exact ih (fun kg2 hkg2 => hmem kg2 (List.mem_cons.mpr (Or.inr hkg2))) kg h2

theorem foldGroup_inv (l : List Record)
    (acc : List (String × List Record) × List Record)
    (hg : GroupsInv acc.1) (hu : UngInv acc.2) :
    GroupsInv (l.foldl groupStep acc).1 ∧ UngInv (l.foldl groupStep acc).2 := by
  induction l generalizing acc with
  | nil => exact ⟨hg, hu⟩
  | cons sch rest ih =>
    rw [List.foldl_cons]
    by_cases hf : identifyFamily sch = ""
    · rw [groupStep_eq_ungrouped acc sch hf]
      refine ih _ hg ?_
      intro r hrm
      rcases List.mem_append.mp hrm with h2 | h2
      · exact hu r h2
      · rw [List.mem_singleton.mp h2]
        exact hf
    · rw [groupStep_eq_grouped acc sch _ (recordKey_some_of_family sch hf)]
      exact ih _ (addToGroups_inv _ _ _ hg (recordKey_some_of_family sch hf)) hu

/-! ### The best entry keeps its group's key -/

theorem pickBestEntry_singleton (b : Record) : pickBestEntry [b] = b := by
  unfold pickBestEntry
  rw [if_pos (by simp)]
  rfl

/-- The picked record agrees with some group member on every field that the
family classifier and sub-key deriver read. -/
theorem pickBestEntry_fields (g : List Record) (hg : g ≠ []) :
    ∃ r ∈ g, (pickBestEntry g).title = r.title ∧ (pickBestEntry g).url = r.url
      ∧ (pickBestEntry g).degree = r.degree := by
  by_cases h1 : g.length == 1
  · obtain ⟨r, rfl⟩ : ∃ r, g = [r] := by
      cases g with
      | nil => simp at h1
      | cons a t =>
        cases t with
        | nil => exact ⟨a, rfl⟩
        | cons b u => simp at h1
    exact ⟨r, List.mem_cons_self r [], by rw [pickBestEntry_singleton],
      by rw [pickBestEntry_singleton], by rw [pickBestEntry_singleton]⟩
  · have hgpos : 0 < g.length := List.length_pos.mpr hg
    have hperm := stableSortDesc_perm completenessScore g
    have hslen := hperm.length_eq
    obtain ⟨b, rest, hsort⟩ :
        ∃ b rest, stableSortDesc completenessScore g = b :: rest := by
      cases hsq : stableSortDesc completenessScore g with
      | nil => rw [hsq] at hslen; simp at hslen; omega
      | cons b rest => exact ⟨b, rest, rfl⟩
    have hbg : b ∈ g := hperm.subset (hsort ▸ List.mem_cons_self b rest)
    refine ⟨b, hbg, ?_⟩
    unfold pickBestEntry
    rw [if_neg h1, hsort]
    by_cases hu : (groupUrls g).length > 1
    · rw [if_pos hu]
      exact ⟨rfl, rfl, rfl⟩
    · rw [if_neg hu]
      exact ⟨rfl, rfl, rfl⟩

theorem recordKey_congr (r1 r2 : Record) (ht : r1.title = r2.title)
    (hu : r1.url = r2.url) (hd : r1.degree = r2.degree) :
    recordKey r1 = recordKey r2 := by
  simp only [recordKey, identifyFamily, getSubKey, ht, hu, hd]

theorem pickBestEntry_key (g : List Record) (k : String) (hne : g ≠ [])
    (hall : ∀ r ∈ g, recordKey r = some k) :
    recordKey (pickBestEntry g) = some k := by
  obtain ⟨r, hrg, ht, hu, hd⟩ := pickBestEntry_fields g hne
  rw [recordKey_congr _ r ht hu hd]
  exact hall r hrg

/-! ### The second grouping pass re-creates singleton groups in order -/

theorem forall₂_map_self {γ : Type} {δ : Type} {ε : Type} (f : γ → δ) (g : γ → ε)
    (R : δ → ε → Prop) (l : List γ) (h : ∀ x ∈ l, R (f x) (g x)) :
    List.Forall₂ R (l.map f) (l.map g) := by
  induction l with
  | nil => exact List.Forall₂.nil
  | cons a t ih =>
    simp only [List.map_cons]
    exact List.Forall₂.cons (h a (List.mem_cons_self a t))
      (ih (fun x hx => h x (List.mem_cons.mpr (Or.inr hx))))

theorem foldGroup_bests (bs : List Record) (ks : List String)
    (hf : List.Forall₂ (fun b k => recordKey b = some k) bs ks) :
    ∀ acc : List (String × List Record) × List Record,
    (acc.1.map Prod.fst ++ ks).Nodup →
    bs.foldl groupStep acc
      = (acc.1 ++ (ks.zip bs).map (fun kb => (kb.1, [kb.2])), acc.2) := by
  induction hf with
  | nil =>
    intro acc hnd
    simp
  | cons hbk hf2 ih =>
    rename_i b k bs2 ks2
    intro acc hnd
    have hknot : k ∉ acc.1.map Prod.fst := by
      rw [List.nodup_middle, List.nodup_cons] at hnd
      intro hc
      exact hnd.1 (List.mem_append.mpr (Or.inl hc))
    rw [List.foldl_cons, groupStep_eq_grouped acc b k hbk,
      addToGroups_notmem _ _ _ hknot]
    have hnd2 : (((acc.1 ++ [(k, [b])]).map Prod.fst) ++ ks2).Nodup := by
      rw [List.map_append]
      simp only [List.map_cons, List.map_nil]
      rw [List.append_assoc]
      simpa using hnd
    rw [ih (acc.1 ++ [(k, [b])], acc.2) hnd2]
    simp [List.zip_cons_cons, List.append_assoc]

theorem foldGroup_ungrouped (us : List Record) (hu : ∀ r ∈ us, identifyFamily r = "") :
    ∀ acc : List (String × List Record) × List Record,
    us.foldl groupStep acc = (acc.1, acc.2 ++ us) := by
  induction us with
  | nil => intro acc; simp
  | cons u rest ih =>
    intro acc
    rw [List.foldl_cons, groupStep_eq_ungrouped acc u (hu u (List.mem_cons_self u rest)),
      ih (fun r hr => hu r (List.mem_cons.mpr (Or.inr hr))) _]
    simp

/-! ### The title fallback removes nothing from its own output -/

theorem dedupUngrouped_sub (l : List Record) :
    ∀ seen, ∀ r ∈ dedupUngrouped seen l, r ∈ l := by
  induction l with
  | nil => simp [dedupUngrouped]
  | cons sch rest ih =>
    intro seen r hr
    unfold dedupUngrouped at hr
    by_cases hc : normalizeTitle sch.title ∈ seen
    · rw [if_pos hc] at hr
      exact List.mem_cons.mpr (Or.inr (ih seen r hr))
    · rw [if_neg hc] at hr
      rcases List.mem_cons.mp hr with h1 | h2
      · exact List.mem_cons.mpr (Or.inl h1)
      · exact List.mem_cons.mpr (Or.inr (ih _ r h2))

theorem dedupUngrouped_titles (l : List Record) :
    ∀ seen, ((dedupUngrouped seen l).map (fun r => normalizeTitle r.title)).Nodup
      ∧ ∀ r ∈ dedupUngrouped seen l, normalizeTitle r.title ∉ seen := by
  induction l with
  | nil => intro seen; simp [dedupUngrouped]
  | cons sch rest ih =>
    intro seen
    unfold dedupUngrouped
    by_cases hc : normalizeTitle sch.title ∈ seen
    · rw [if_pos hc]
      exact ih seen
    · rw [if_neg hc]
      obtain ⟨ihnd, ihseen⟩ := ih (normalizeTitle sch.title :: seen)
      refine ⟨?_, ?_⟩
      · simp only [List.map_cons]
        rw [List.nodup_cons]
        refine ⟨?_, ihnd⟩
        intro hmem
        obtain ⟨r, hr, hrt⟩ := List.mem_map.mp hmem
        refine ihseen r hr ?_
        rw [hrt]
        exact List.mem_cons_self _ _
      · intro r hr
        rcases List.mem_cons.mp hr with h1 | h2
        · subst h1
          exact hc
        · intro hs
          exact ihseen r h2 (List.mem_cons.mpr (Or.inr hs))

theorem dedupUngrouped_id (l : List Record) :
    ∀ seen, ((l.map (fun r => normalizeTitle r.title)).Nodup) →
    (∀ r ∈ l, normalizeTitle r.title ∉ seen) →
    dedupUngrouped seen l = l := by
  induction l with
  | nil => intro seen _ _; rfl
  | cons sch rest ih =>
    intro seen hnd hseen
    unfold dedupUngrouped
    rw [if_neg (hseen sch (List.mem_cons_self sch rest))]
    simp only [List.map_cons, List.nodup_cons] at hnd
    rw [ih _ hnd.2]
    intro r hr hc
    rcases List.mem_cons.mp hc with h1 | h2
    · exact hnd.1 (List.mem_map.mpr ⟨r, hr, h1⟩)
    · exact hseen r (List.mem_cons.mpr (Or.inr hr)) h2

theorem smartDeduplicate_eq (xs : List Record) :
    smartDeduplicate xs
      = (xs.foldl groupStep ([], [])).1.map (fun kg => pickBestEntry kg.2)
        ++ dedupUngrouped [] (xs.foldl groupStep ([], [])).2 := rfl

/-- Running `_smart_deduplicate` on an output of the grouping invariants
removes nothing: every best entry re-forms its own singleton group under the
same key, in the same order, and the deduplicated ungrouped records survive
the title fallback unchanged. -/
theorem smartDeduplicate_pass2 (gs : List (String × List Record)) (ug : List Record)
    (hginv : GroupsInv gs) (huinv : UngInv ug) :
    smartDeduplicate (gs.map (fun kg => pickBestEntry kg.2) ++ dedupUngrouped [] ug)
      = gs.map (fun kg => pickBestEntry kg.2) ++ dedupUngrouped [] ug := by
  have hforall : List.Forall₂ (fun b k => recordKey b = some k)
      (gs.map (fun kg => pickBestEntry kg.2)) (gs.map Prod.fst) := by
    apply forall₂_map_self
    intro kg hkg
    exact pickBestEntry_key kg.2 kg.1 (hginv.2 kg hkg).1 (hginv.2 kg hkg).2
  have hu2 : ∀ r ∈ dedupUngrouped [] ug, identifyFamily r = "" :=
    fun r hr => huinv r (dedupUngrouped_sub ug [] r hr)
  rw [smartDeduplicate_eq, List.foldl_append,
    foldGroup_bests _ _ hforall ([], []) (by simpa using hginv.1),
    foldGroup_ungrouped _ hu2 _]
  simp only [List.nil_append]
  congr 1
  · rw [List.map_map]
    have hpt : ∀ kb ∈ (gs.map Prod.fst).zip (gs.map (fun kg => pickBestEntry kg.2)),
        ((fun kg => pickBestEntry kg.2) ∘ (fun kb => (kb.1, [kb.2]))) kb = Prod.snd kb := by
      intro kb _
      exact pickBestEntry_singleton kb.2
    rw [List.map_congr_left hpt]
    exact List.map_snd_zip _ _ (by simp)
  · exact dedupUngrouped_id _ [] (dedupUngrouped_titles ug []).1
      (by intro r hr; exact List.not_mem_nil _)

/-- Claim C4: Deduplication is idempotent: applying `_smart_deduplicate` to its
own output returns the same list — every `family:sub_key` group and every
normalized-title signature in the output is represented by exactly one
record, so a second pass regroups each best entry into a singleton group
under its original key (in the original order) and removes nothing from the
ungrouped tail. -/
theorem smartDeduplicate_idempotent (l : List Record) :
    smartDeduplicate (smartDeduplicate l) = smartDeduplicate l := by
  obtain ⟨hginv, huinv⟩ := foldGroup_inv l ([], []) ⟨by simp, by simp⟩
    (by intro r hr; exact absurd hr (List.not_mem_nil r))
  rw [smartDeduplicate_eq l]
  exact smartDeduplicate_pass2 _ _ hginv huinv
